import Mathlib

/-!
Verification of the relnext link-detection library (src/index.ts).

The development shallowly embeds the TypeScript source into Lean.  Strings are
modelled as `List Char` (`Chars`).  JavaScript regular-expression scans are
transcribed into explicit scanning functions; each transcription carries a doc
comment quoting the original pattern and stating the modelled semantics.
Network collaborators (`urlExists`, i.e. the existence probe) are modelled as a
boolean oracle `checkExists` carried in the options record, and the optional
logger is modelled by returning the list of warning messages the code would
emit (result and log are returned as a pair).  The platform `URL` builtin is
modelled by `parseUrlChars`/`jsResolve` for hierarchical `scheme://host...`
URLs: percent-encoding, punycode, dot-segment normalisation and non-special
schemes (`mailto:` etc.) are outside the model, which none of the verified
inputs exercise.
-/

namespace Relnext

abbrev Chars := List Char

/-- Single-quote character (kept out of literals). -/
def sqChar : Char := Char.ofNat 39

/-- Double-quote character. -/
def dqChar : Char := Char.ofNat 34

/-- Model of the JS `\s` class (restricted to the common ASCII whitespace). -/
def isWsChar (c : Char) : Bool :=
  c = ' ' || c = '\t' || c = '\n' || c = '\r'

def isDigitChar (c : Char) : Bool :=
  '0' ≤ c && c ≤ '9'

def isAsciiAlpha (c : Char) : Bool :=
  ('a' ≤ c && c ≤ 'z') || ('A' ≤ c && c ≤ 'Z')

/-- ASCII lowercasing, modelling the case-insensitive `i` regex flag and URL
scheme/host normalisation (an explicit table keeps case analysis easy). -/
def lcChar (c : Char) : Char :=
  match c with
  | 'A' => 'a' | 'B' => 'b' | 'C' => 'c' | 'D' => 'd' | 'E' => 'e' | 'F' => 'f'
  | 'G' => 'g' | 'H' => 'h' | 'I' => 'i' | 'J' => 'j' | 'K' => 'k' | 'L' => 'l'
  | 'M' => 'm' | 'N' => 'n' | 'O' => 'o' | 'P' => 'p' | 'Q' => 'q' | 'R' => 'r'
  | 'S' => 's' | 'T' => 't' | 'U' => 'u' | 'V' => 'v' | 'W' => 'w' | 'X' => 'x'
  | 'Y' => 'y' | 'Z' => 'z'
  | c => c

def lcChars (s : Chars) : Chars := s.map lcChar

def dropWs (s : Chars) : Chars := s.dropWhile isWsChar

/-- Numeric value of a nonempty all-digit string. -/
def natOfDigits (ds : Chars) : Nat :=
  ds.foldl (fun n c => 10 * n + (c.toNat - 48)) 0

/-- Fuelled helper for `natToChars` (structural recursion so that the kernel
can evaluate it; `fuel = n` always suffices since `n / 10 < n`). -/
def natToCharsAux : Nat → Nat → Chars
  | 0, n => [Char.ofNat (48 + n % 10)]
  | fuel + 1, n =>
    if n < 10 then [Char.ofNat (48 + n)]
    else natToCharsAux fuel (n / 10) ++ [Char.ofNat (48 + n % 10)]

/-- Decimal digits of a natural number, as produced by JS `String(n)`. -/
def natToChars (n : Nat) : Chars :=
  natToCharsAux n n

/-- JS `parseInt(s, 10)`: skip leading whitespace, optional sign, then the
longest prefix of decimal digits; `NaN` (here `none`) if there is none.
Trailing non-digit characters are ignored, exactly as in JS. -/
def jsParseInt (s : Chars) : Option Int :=
  let s1 := dropWs s
  match s1 with
  | '-' :: r =>
      let ds := r.takeWhile isDigitChar
      if ds = [] then none else some (-(natOfDigits ds : Int))
  | '+' :: r =>
      let ds := r.takeWhile isDigitChar
      if ds = [] then none else some (natOfDigits ds : Int)
  | r =>
      let ds := r.takeWhile isDigitChar
      if ds = [] then none else some (natOfDigits ds : Int)

/-! ### Model of the platform `URL` / `URLSearchParams` builtins -/

/-- Split a raw query string on `&`, keeping empty segments for now. -/
def splitOnAmp : Chars → List Chars
  | [] => [[]]
  | c :: r =>
    match splitOnAmp r with
    | [] => if c = '&' then [[], []] else [[c]]
    | s :: rest => if c = '&' then [] :: s :: rest else (c :: s) :: rest

/-- One `key=value` segment; a segment without `=` has the empty value. -/
def parsePair (seg : Chars) : Chars × Chars :=
  let k := seg.takeWhile (fun c => c ≠ '=')
  match seg.drop k.length with
  | _ :: v => (k, v)
  | [] => (k, [])

/-- `URLSearchParams` view of a raw query string: split on `&`, drop empty
segments, split each on the first `=`.  Percent/plus decoding is not
modelled (no verified input uses it). -/
def parseForm (q : Chars) : List (Chars × Chars) :=
  ((splitOnAmp q).filter (fun s => s ≠ [])).map parsePair

/-- `URLSearchParams.get`: value of the first pair with the given key. -/
def getParam (l : List (Chars × Chars)) (k : Chars) : Option Chars :=
  match l.find? (fun p => p.1 = k) with
  | some p => some p.2
  | none => none

/-- Helper for `setParam`: replace the value of the first pair with key `k`
and remove every later pair with that key (WHATWG `URLSearchParams.set`). -/
def setParamReplace : List (Chars × Chars) → Chars → Chars → List (Chars × Chars)
  | [], _, _ => []
  | (k2, v2) :: r, k, v =>
    if k2 = k then (k, v) :: r.filter (fun p => ¬ p.1 = k)
    else (k2, v2) :: setParamReplace r k v

/-- `URLSearchParams.set`: if the key is present, update the first occurrence
in place and delete the rest; otherwise append the pair. -/
def setParam (l : List (Chars × Chars)) (k v : Chars) : List (Chars × Chars) :=
  if l.any (fun p => p.1 = k) then setParamReplace l k v else l ++ [(k, v)]

/-- `URLSearchParams.toString`: `k=v` pairs joined with `&`. -/
def serializeParams : List (Chars × Chars) → Chars
  | [] => []
  | [(k, v)] => k ++ '=' :: v
  | (k, v) :: r => (k ++ '=' :: v) ++ '&' :: serializeParams r

/-- Parsed hierarchical URL: `scheme://host` + path + `?query` + `#frag`.
`query` and `frag` are stored without their leading delimiter. -/
structure UrlObj where
  scheme : Chars
  host : Chars
  pathname : Chars
  query : Chars
  frag : Chars
deriving DecidableEq

def UrlObj.searchStr (u : UrlObj) : Chars :=
  if u.query = [] then [] else '?' :: u.query

def UrlObj.hashStr (u : UrlObj) : Chars :=
  if u.frag = [] then [] else '#' :: u.frag

def UrlObj.origin (u : UrlObj) : Chars :=
  u.scheme ++ ':' :: '/' :: '/' :: u.host

def UrlObj.href (u : UrlObj) : Chars :=
  u.origin ++ u.pathname ++ u.searchStr ++ u.hashStr

/-- Well-formedness of a parsed URL object: a nonempty letter-led scheme, a
nonempty whitespace-free host, and a path starting with `/`. -/
def wfUrl (u : UrlObj) : Prop :=
  u.scheme ≠ [] ∧ (∀ c ∈ u.scheme, isSchemeChar c) ∧
  u.host ≠ [] ∧ (∀ c ∈ u.host, ¬ isWsChar c) ∧
  ∃ p, u.pathname = '/' :: p
where isSchemeChar (c : Char) : Bool :=
  isAsciiAlpha c || isDigitChar c || c = '+' || c = '-' || c = '.'

instance (u : UrlObj) : Decidable (wfUrl u) := by
  unfold wfUrl
  have : Decidable (∃ p, u.pathname = '/' :: p) := by
    cases h : u.pathname with
    | nil => exact .isFalse (by simp)
    | cons c r =>
      by_cases hc : c = '/'
      · exact .isTrue ⟨r, by rw [hc]⟩
      · exact .isFalse (by simp [hc])
  exact instDecidableAnd

/-- Characters allowed in the authority (everything up to `/`, `?` or `#`). -/
def isAuthChar (c : Char) : Bool := ¬ (c = '/' || c = '?' || c = '#')

/-- Characters allowed in the path (everything up to `?` or `#`). -/
def isPathChar (c : Char) : Bool := ¬ (c = '?' || c = '#')

/-- Characters allowed in the query (everything up to `#`). -/
def isQueryChar (c : Char) : Bool := c ≠ '#'

/-- Split `path?query#frag` (everything after the authority). -/
def splitPQF (s : Chars) : Chars × Chars × Chars :=
  let p := s.takeWhile isPathChar
  match s.dropWhile isPathChar with
  | '?' :: r =>
    let q := r.takeWhile isQueryChar
    match r.dropWhile isQueryChar with
    | '#' :: f => (p, q, f)
    | _ => (p, q, [])
  | '#' :: f => (p, [], f)
  | _ => (p, [], [])

/-- Model of `new URL(s)` for hierarchical URLs.  Requires
`scheme://authority`; the authority must be nonempty and whitespace-free
(a space in the host is what makes `http://invalid url.com` throw in JS);
scheme and host are lowercased; an empty path becomes `/`. -/
def parseUrlChars (s : Chars) : Option UrlObj :=
  let sch := s.takeWhile wfUrl.isSchemeChar
  match sch with
  | [] => none
  | c0 :: _ =>
    if isAsciiAlpha c0 then
      match s.drop sch.length with
      | ':' :: '/' :: '/' :: r =>
        let auth := r.takeWhile isAuthChar
        if auth = [] || auth.any isWsChar then none
        else
          let (p, q, f) := splitPQF (r.dropWhile isAuthChar)
          some ⟨lcChars sch, lcChars auth, if p = [] then ['/'] else p, q, f⟩
      | _ => none
    else none

/-! ### URL pattern inference (findUrlByQueryParam / findUrlByPathSegment) -/

inductive Direction where
  | next
  | prev
deriving DecidableEq

inductive Method where
  | rel
  | pagination
  | text
  | className
  | ariaLabel
  | alt
deriving DecidableEq

/-- Per-call configuration.  `checkExists` is the oracle modelling the
`urlExists` network collaborator (HEAD probe); `verifyExists = some false`
models the `verifyExists: false` option (the source skips the probe exactly
when `options?.verifyExists === false`).  The logger is modelled by the
warning lists returned by the functions. -/
structure EngineOptions where
  methods : Option (List Method) := none
  classNameRegex : Option (Chars → Bool) := none
  verifyExists : Option Bool := none
  checkExists : Chars → Bool := fun _ => false

/-- Loop body of the target-parameter search: try `page`, `p`, `index` in
order; take the first key whose value is a nonempty string parsing as an
integer (a present key with an unparseable value does not stop the loop). -/
def findTargetParamGo (params : List (Chars × Chars)) : List Chars → Option (Chars × Int)
  | [] => none
  | k :: ks =>
    match getParam params k with
    | some v =>
      if v ≠ [] then
        match jsParseInt v with
        | some n => some (k, n)
        | none => findTargetParamGo params ks
      else findTargetParamGo params ks
    | none => findTargetParamGo params ks

def findTargetParam (params : List (Chars × Chars)) : Option (Chars × Int) :=
  findTargetParamGo params ["page".toList, "p".toList, "index".toList]

def queryParamWarnMsg : Chars :=
  "Invalid URL provided to findUrlByQueryParam".toList

def pathSegmentWarnMsg : Chars :=
  "Invalid URL provided to findUrlByPathSegment".toList

/-- `findUrlByQueryParam` from src/index.ts: parse the URL, find the target
query parameter, step its value by direction, reject a non-positive result,
rewrite the parameter via `URLSearchParams.set`, and return the candidate if
verification is disabled or the existence oracle confirms it. -/
def findUrlByQueryParam (url : Chars) (dir : Direction) (opts : EngineOptions) :
    Option Chars × List Chars :=
  match parseUrlChars url with
  | none => (none, [queryParamWarnMsg])
  | some U =>
    let params := parseForm U.query
    match findTargetParam params with
    | none => (none, [])
    | some (k, cur) =>
      let newNumber : Int := if dir = .next then cur + 1 else cur - 1
      if newNumber > 0 then
        let q := serializeParams (setParam params k (natToChars newNumber.toNat))
        let newUrl := U.origin ++ U.pathname ++ (if q = [] then [] else '?' :: q) ++ U.hashStr
        if opts.verifyExists = some false || opts.checkExists newUrl then (some newUrl, [])
        else (none, [])
      else (none, [])

/-- `pathname.replace(/\/$/, "")`: strip at most one trailing slash. -/
def stripTrailingSlash (p : Chars) : Chars :=
  if p.getLast? = some '/' then p.dropLast else p

/-- Match of `REGEX.PATH_PAGE_NUMBER = /^(.*[/\-_])(\d+)$/` against a path.
With the greedy `.*`, the pattern matches exactly when the path ends in a
nonempty digit run whose immediately preceding character is `/`, `-` or `_`;
group 1 is everything up to and including that separator, group 2 the digit
run. -/
def pathPageMatch (p : Chars) : Option (Chars × Chars) :=
  let rds := p.reverse.takeWhile isDigitChar
  if rds = [] then none
  else
    match p.reverse.drop rds.length with
    | c :: _ =>
      if c = '/' || c = '-' || c = '_' then
        some (p.take (p.length - rds.length), rds.reverse)
      else none
    | [] => none

/-- `findUrlByPathSegment` from src/index.ts: parse the URL, strip one
trailing slash from the path, match the trailing page number, step it by
direction, reject a non-positive result, and rebuild
`origin + newPath + search + hash`. -/
def findUrlByPathSegment (url : Chars) (dir : Direction) (opts : EngineOptions) :
    Option Chars × List Chars :=
  match parseUrlChars url with
  | none => (none, [pathSegmentWarnMsg])
  | some U =>
    match pathPageMatch (stripTrailingSlash U.pathname) with
    | none => (none, [])
    | some (stem, ds) =>
      let currentNumber : Int := (natOfDigits ds : Int)
      let newNumber : Int := if dir = .next then currentNumber + 1 else currentNumber - 1
      if newNumber > 0 then
        let newUrl := U.origin ++ (stem ++ natToChars newNumber.toNat) ++ U.searchStr ++ U.hashStr
        if opts.verifyExists = some false || opts.checkExists newUrl then (some newUrl, [])
        else (none, [])
      else (none, [])

/-- `findUrlByPattern`: query-parameter detection first; path-segment
detection whenever it returned null. -/
def findUrlByPattern (url : Chars) (dir : Direction) (opts : EngineOptions) :
    Option Chars × List Chars :=
  match findUrlByQueryParam url dir opts with
  | (some u, l) => (some u, l)
  | (none, l1) =>
    match findUrlByPathSegment url dir opts with
    | (r, l2) => (r, l1 ++ l2)

def findNextByUrl (url : Chars) (opts : EngineOptions) : Option Chars × List Chars :=
  findUrlByPattern url .next opts

def findPrevByUrl (url : Chars) (opts : EngineOptions) : Option Chars × List Chars :=
  findUrlByPattern url .prev opts

/-! ### Attribute extraction and href resolution -/

/-- Case-insensitive literal prefix match; returns the rest of the string. -/
def stripPrefixCI : Chars → Chars → Option Chars
  | s, [] => some s
  | [], _ :: _ => none
  | c :: s, p :: ps => if lcChar c = lcChar p then stripPrefixCI s ps else none

/-- Attempt of the attribute pattern
`${attributeName}\s*=\s*(['"])(?<value>[^"']*)\1` (flag `i`) at the start of
`s`: the attribute name (case-insensitive), optional whitespace around `=`, an
opening quote, then the value — which, since `[^"']` excludes both quote
characters, runs to the first quote character, and that character must equal
the opening quote (the `\1` backreference). -/
def matchAttrValueAt (s name : Chars) : Option Chars :=
  match stripPrefixCI s name with
  | none => none
  | some s1 =>
    match dropWs s1 with
    | '=' :: s2 =>
      match dropWs s2 with
      | q :: s3 =>
        if q = dqChar || q = sqChar then
          let v := s3.takeWhile (fun c => ¬ (c = dqChar || c = sqChar))
          match s3.drop v.length with
          | c :: _ => if c = q then some v else none
          | [] => none
        else none
      | [] => none
    | _ => none

/-- Leftmost-match scan for `matchAttrValueAt`: the JS regex search tries
each start position in order, so the name matches as an unanchored substring
of the attribute text. -/
def extractAttributeGo (name : Chars) : Chars → Option Chars
  | [] => none
  | s@(_ :: rest) =>
    match matchAttrValueAt s name with
    | some v => some v
    | none => extractAttributeGo name rest

/-- `extractAttribute` from src/index.ts (the regex cache is a pure
performance memoisation and is not modelled). -/
def extractAttribute (attributes name : Chars) : Option Chars :=
  extractAttributeGo name attributes

/-- Does `s` start with `scheme:` (a letter-led run of scheme characters
followed by a colon)?  Such an href is an absolute-URL attempt in JS: it is
parsed on its own and the base is ignored. -/
def hasUrlScheme (s : Chars) : Bool :=
  let sch := s.takeWhile wfUrl.isSchemeChar
  match sch, s.drop sch.length with
  | c :: _, ':' :: _ => isAsciiAlpha c
  | _, _ => false

/-- Everything up to and including the last `/` of a path. -/
def dirOfPath (p : Chars) : Chars :=
  (p.reverse.dropWhile (fun c => c ≠ '/')).reverse

/-- Model of `new URL(href, base)` for hierarchical URLs: an href with a
scheme is parsed absolutely (the base is ignored; failure does not fall back
to relative resolution); otherwise the base must parse, and protocol-relative,
absolute-path, query-only, fragment-only and relative-path references are
resolved against it.  Dot-segment normalisation and percent-encoding are not
modelled. -/
def jsResolve (href base : Chars) : Option Chars :=
  if hasUrlScheme href then (parseUrlChars href).map UrlObj.href
  else
    match parseUrlChars base, href with
    | none, _ => none
    | some B, [] => some B.href
    | some B, '/' :: '/' :: _ => (parseUrlChars (B.scheme ++ ':' :: href)).map UrlObj.href
    | some B, '/' :: _ =>
      let (p, q, f) := splitPQF href
      some (UrlObj.href ⟨B.scheme, B.host, p, q, f⟩)
    | some B, '?' :: r =>
      let q := r.takeWhile isQueryChar
      let f := match r.dropWhile isQueryChar with
        | '#' :: f => f
        | _ => []
      some (UrlObj.href ⟨B.scheme, B.host, B.pathname, q, f⟩)
    | some B, '#' :: f => some (UrlObj.href ⟨B.scheme, B.host, B.pathname, B.query, f⟩)
    | some B, href =>
      let (p, q, f) := splitPQF href
      some (UrlObj.href ⟨B.scheme, B.host, dirOfPath B.pathname ++ p, q, f⟩)

def hrefName : Chars := "href".toList

/-- The warning `Invalid URL '${href}' for base '${baseUrl}': ${message}`
(the trailing platform error text is not modelled). -/
def invalidUrlWarnMsg (href base : Chars) : Chars :=
  "Invalid URL ".toList ++ sqChar :: (href ++ sqChar :: (" for base ".toList ++ sqChar :: (base ++ [sqChar])))

/-- `extractAbsoluteHref` from src/index.ts: extract `href`; the empty string
is falsy, so a missing or empty href yields null silently; a resolution
failure logs one warning naming the href and the base and yields null. -/
def extractAbsoluteHref (attributes base : Chars) : Option Chars × List Chars :=
  match extractAttribute attributes hrefName with
  | some href =>
    if href = [] then (none, [])
    else
      match jsResolve href base with
      | some u => (some u, [])
      | none => (none, [invalidUrlWarnMsg href base])
  | none => (none, [])

/-! ### Generic regex-scan machinery

JS `matchAll` scans left to right: a pattern attempt is made at each start
position; on success the scan resumes at the match end, on failure at the next
position.  `scanAllAux` implements this with a structural fuel argument
(`fuel = s.length` always suffices because every iteration consumes at least
one character). -/

def scanAllAux {α : Type} (step : Chars → Option (α × Chars)) : Nat → Chars → List α
  | 0, _ => []
  | _ + 1, [] => []
  | fuel + 1, s@(_ :: rest) =>
    match step s with
    | some (a, r) => a :: scanAllAux step fuel (if r.length < s.length then r else rest)
    | none => scanAllAux step fuel rest

def scanAll {α : Type} (step : Chars → Option (α × Chars)) (s : Chars) : List α :=
  scanAllAux step s.length s

/-- JS `.match` (non-global): the first position at which the pattern
matches. -/
def firstMatchPos {α : Type} (step : Chars → Option α) : Chars → Option α
  | [] => none
  | s@(_ :: rest) =>
    match step s with
    | some a => some a
    | none => firstMatchPos step rest

/-- Case-insensitive substring test (a `.test` with an unanchored pattern). -/
def containsCIGo (pat : Chars) : Chars → Bool
  | [] => (stripPrefixCI [] pat).isSome
  | s@(_ :: rest) => (stripPrefixCI s pat).isSome || containsCIGo pat rest

def containsCI (s pat : Chars) : Bool := containsCIGo pat s

def isWordChar (c : Char) : Bool := isAsciiAlpha c || isDigitChar c || c = '_'

def boundaryOkAfter (b : Chars) : Bool :=
  match b with
  | [] => true
  | c :: _ => !(isWordChar c)

/-- `\bw\b` occurrence inside a region whose left neighbour is a non-word
character (the opening quote, in the rel pattern). -/
def wordOccursGo (w : Chars) : Bool → Chars → Bool
  | _, [] => false
  | prevIsWord, s@(c :: rest) =>
    ((!prevIsWord) && (match stripPrefixCI s w with
      | some b => boundaryOkAfter b
      | none => false))
    || wordOccursGo w (isWordChar c) rest

def wordOccurs (w v : Chars) : Bool := wordOccursGo w false v

/-! ### The pattern library (REGEX table) -/

/-- Attempt of `REGEX.REL` (`rel\s*=\s*(['"])[^'"]*?\b(next|prev|previous)\b[^'"]*?\1`,
flag `i`) at a single start position: `rel` is unanchored, the quoted value
runs to the first quote character, which must equal the opening quote, and the
direction word must occur word-bounded inside it. -/
def relMatchAt (dir : Direction) (s : Chars) : Bool :=
  match stripPrefixCI s "rel".toList with
  | none => false
  | some s1 =>
    match dropWs s1 with
    | '=' :: s2 =>
      match dropWs s2 with
      | q :: s3 =>
        (q = dqChar || q = sqChar) &&
          (let v := s3.takeWhile (fun c => ¬ (c = dqChar || c = sqChar))
           (match s3.drop v.length with
            | c :: _ => c = q
            | [] => false)
           && (match dir with
               | .next => wordOccurs "next".toList v
               | .prev => wordOccurs "prev".toList v || wordOccurs "previous".toList v))
      | [] => false
    | _ => false

/-- `REGEX.REL[direction].test(attributes)`. -/
def relTest (dir : Direction) : Chars → Bool
  | [] => false
  | s@(_ :: rest) => relMatchAt dir s || relTest dir rest

def stripOne (s : Chars) (lit : String) : List Chars :=
  match stripPrefixCI s lit.toList with
  | some r => [r]
  | none => []

/-- `\s*(page)?` after a direction word: both the with-`page` and without
remainders (the regex may take either). -/
def afterOptPage (s : Chars) : List Chars :=
  let s1 := dropWs s
  match stripPrefixCI s1 "page".toList with
  | some r => [r, s1]
  | none => [s1]

/-- `(のページ)?(へ)?` after a Japanese direction word. -/
def jpCoresAux (starts : List Chars) : List Chars :=
  starts.flatMap (fun r =>
    let m1 : List Chars :=
      match stripPrefixCI r "のページ".toList with
      | some r2 => [r2, r]
      | none => [r]
    m1.flatMap (fun r2 =>
      match stripPrefixCI r2 "へ".toList with
      | some r3 => [r3, r2]
      | none => [r2]))

/-- `\s*(一)?(页|頁)` after a Chinese direction word. -/
def zhCoresAux (starts : List Chars) : List Chars :=
  starts.flatMap (fun r =>
    let r1 := dropWs r
    let withOne : List Chars :=
      match stripPrefixCI r1 "一".toList with
      | some r2 => [r2, r1]
      | none => [r1]
    withOne.flatMap (fun r2 => stripOne r2 "页" ++ stripOne r2 "頁"))

/-- The alternatives of `REGEX.TEXT.next` after the leading `\s*`; each entry
is a possible remainder, to be checked against the `\s*>*$` tail. -/
def nextCores (s : Chars) : List Chars :=
  (stripOne s "next").flatMap afterOptPage
    ++ stripOne s "older" ++ stripOne s "forward"
    ++ jpCoresAux (stripOne s "次" ++ stripOne s "つぎ")
    ++ zhCoresAux (stripOne s "下" ++ stripOne s "后")
    ++ stripOne s "다음"
    ++ stripOne s "»" ++ stripOne s ">" ++ stripOne s "→"

/-- The alternatives of `REGEX.TEXT.prev` after the leading `\s*<*`. -/
def prevCores (s : Chars) : List Chars :=
  (stripOne s "prev" ++ stripOne s "previous").flatMap afterOptPage
    ++ stripOne s "older" ++ stripOne s "back"
    ++ jpCoresAux (stripOne s "前")
    ++ zhCoresAux (stripOne s "上" ++ stripOne s "前")
    ++ stripOne s "이전"
    ++ stripOne s "«" ++ stripOne s "<" ++ stripOne s "←"

/-- Suffixes of `s` obtained by stripping `0..k` leading `<` (the `<*` of the
prev text pattern may consume any number of them). -/
def ltStrips : Chars → List Chars
  | [] => [[]]
  | s@(c :: rest) => if c = '<' then s :: ltStrips rest else [s]

/-- Whole-string test of `REGEX.TEXT[direction]` (anchored `^...$`, flag `i`):
next is `^\s* core \s*>*$`, prev is `^\s*<* core \s*$`. -/
def textTest (dir : Direction) (t : Chars) : Bool :=
  match dir with
  | .next => (nextCores (dropWs t)).any (fun r => (dropWs r).all (fun c => c = '>'))
  | .prev => ((ltStrips (dropWs t)).flatMap prevCores).any (fun r => (dropWs r).isEmpty)

/-- `REGEX.CLASS_NAME[direction].test`: unanchored case-insensitive substring
(`/next/i`, `/prev|previous/i`). -/
def classNameTest (dir : Direction) (s : Chars) : Bool :=
  match dir with
  | .next => containsCI s "next".toList
  | .prev => containsCI s "prev".toList || containsCI s "previous".toList

/-! ### Tag-level scanners -/

/-- `[^>]*?>` after a tag head: the attribute text up to the closing `>`. -/
def attrsToGt (r : Chars) : Option (Chars × Chars) :=
  let a := r.takeWhile (fun c => c ≠ '>')
  match r.drop a.length with
  | '>' :: rest => some (a, rest)
  | _ => none

/-- Tag name (case-insensitive) followed by `\s+`; the greedy `\s+` leaves
the attribute capture starting at the first non-whitespace character. -/
def stripNameWs (r name : Chars) : Option Chars :=
  match stripPrefixCI r name with
  | some (c :: rest) => if isWsChar c then some (dropWs rest) else none
  | _ => none

/-- `\s+(?<attributes>[^>]+)>` after an `a` tag name: at least one whitespace
character, then a nonempty attribute capture.  When everything up to `>` is
whitespace, backtracking gives the last whitespace character to the capture. -/
def anchorAttrsAfterName (r2 : Chars) : Option (Chars × Chars) :=
  let w := r2.takeWhile isWsChar
  let rest := r2.drop w.length
  let A := rest.takeWhile (fun c => c ≠ '>')
  match rest.drop A.length with
  | '>' :: after =>
    if w = [] then none
    else if A ≠ [] then some (A, after)
    else
      match w with
      | _ :: _ :: _ => some ([w.getLastD ' '], after)
      | _ => none
  | _ => none

/-- `REGEX.ANCHOR_TAG_START = /<a\s+(?<attributes>[^>]+)>/gi` at one
position. -/
def anchorOpenAt (s : Chars) : Option (Chars × Chars) :=
  match s with
  | '<' :: r =>
    match stripPrefixCI r "a".toList with
    | some r2 => anchorAttrsAfterName r2
    | none => none
  | _ => none

/-- step of `REGEX.POTENTIAL_LINK_TAGS = /<(?:a|link)\s+(?<attributes>[^>]*?)>/gi`
(the attribute capture may be empty here). -/
def pltStep (s : Chars) : Option (Chars × Chars) :=
  match s with
  | '<' :: r =>
    match stripNameWs r "a".toList with
    | some r2 => attrsToGt r2
    | none =>
      match stripNameWs r "link".toList with
      | some r2 => attrsToGt r2
      | none => none
  | _ => none

/-- Split at the first case-insensitive `</a>`: the lazy `.*?` with dotall of
`REGEX.ANCHOR_TAG` runs to the first closing tag. -/
def splitAtCloseA : Chars → Option (Chars × Chars)
  | [] => none
  | s@(c :: rest) =>
    match stripPrefixCI s "</a>".toList with
    | some after => some ([], after)
    | none =>
      match splitAtCloseA rest with
      | some (inner, after) => some (c :: inner, after)
      | none => none

/-- step of `REGEX.ANCHOR_TAG = /<a\s+(?<attributes>[^>]+)>(?<innerText>.*?)<\/a>/gis`. -/
def anchorTagStep (s : Chars) : Option ((Chars × Chars) × Chars) :=
  match anchorOpenAt s with
  | some (attrs, after) =>
    match splitAtCloseA after with
    | some (inner, rest) => some ((attrs, inner), rest)
    | none => none
  | none => none

/-- step of `REGEX.IMG_TAG = /<img[^>]+>/gi`; yields the full tag text
(`match[0]`), preserving the original case. -/
def imgStep (s : Chars) : Option (Chars × Chars) :=
  match s with
  | '<' :: r =>
    match stripPrefixCI r "img".toList with
    | some r2 =>
      let A := r2.takeWhile (fun c => c ≠ '>')
      if A = [] then none
      else
        match r2.drop A.length with
        | '>' :: _ => some (s.take (A.length + 5), r2.drop (A.length + 1))
        | _ => none
    | none => none
  | _ => none

/-- `innerText.replace(REGEX.HTML_TAGS, "")` with `HTML_TAGS = /<[^>]+>/g`. -/
def stripHtmlTagsAux : Nat → Chars → Chars
  | 0, s => s
  | _ + 1, [] => []
  | fuel + 1, '<' :: r =>
    (let A := r.takeWhile (fun c => c ≠ '>')
     if A = [] then '<' :: stripHtmlTagsAux fuel r
     else
       match r.drop A.length with
       | '>' :: after => stripHtmlTagsAux fuel after
       | _ => '<' :: stripHtmlTagsAux fuel r)
  | fuel + 1, c :: r => c :: stripHtmlTagsAux fuel r

def stripHtmlTags (s : Chars) : Chars := stripHtmlTagsAux s.length s

def isHexChar (c : Char) : Bool :=
  isDigitChar c || ('a' ≤ lcChar c && lcChar c ≤ 'f')

/-- One entity of `REGEX.HTML_ENTITIES = /&[a-z]+;|&#[0-9]+;|&#x[0-9a-f]+;/gi`
at a position; returns the rest after the entity. -/
def entityAt (s : Chars) : Option Chars :=
  match s with
  | '&' :: r =>
    (let letters := r.takeWhile isAsciiAlpha
     if letters ≠ [] then
       match r.drop letters.length with
       | ';' :: after => some after
       | _ => none
     else none)
    <|>
    (match r with
     | '#' :: r2 =>
       (let ds := r2.takeWhile isDigitChar
        if ds ≠ [] then
          match r2.drop ds.length with
          | ';' :: after => some after
          | _ => none
        else none)
       <|>
       (match r2 with
        | c :: r3 =>
          if lcChar c = 'x' then
            let hs := r3.takeWhile isHexChar
            if hs ≠ [] then
              match r3.drop hs.length with
              | ';' :: after => some after
              | _ => none
            else none
          else none
        | [] => none)
     | _ => none)
  | _ => none

def stripEntitiesAux : Nat → Chars → Chars
  | 0, s => s
  | _ + 1, [] => []
  | fuel + 1, s@(c :: rest) =>
    match entityAt s with
    | some after => stripEntitiesAux fuel after
    | none => c :: stripEntitiesAux fuel rest

def stripEntities (s : Chars) : Chars := stripEntitiesAux s.length s

/-- JS `String.prototype.trim` (restricted to the modelled whitespace). -/
def trimWs (s : Chars) : Chars := (dropWs (dropWs s).reverse).reverse

/-! ### Pagination patterns -/

def stripAnyPrefixCI (s : Chars) : List Chars → Option Chars
  | [] => none
  | p :: ps =>
    match stripPrefixCI s p with
    | some r => some r
    | none => stripAnyPrefixCI s ps

/-- `(class|id)\s*=\s*['"][^'"]*(kw1|kw2|...)[^'"]*['"]` at one position:
quoted value (running to the first quote character, closed by the matching
quote via the explicit quote pair) containing one of the keywords. -/
def classTokenContainsAt (keys : List Chars) (kws : List Chars) (s : Chars) : Bool :=
  keys.any (fun k =>
    match stripPrefixCI s k with
    | some s1 =>
      (match dropWs s1 with
       | '=' :: s2 =>
         (match dropWs s2 with
          | q :: s3 =>
            (q = dqChar || q = sqChar) &&
              (let v := s3.takeWhile (fun c => ¬ (c = dqChar || c = sqChar))
               (match s3.drop v.length with
                | c :: _ => c = q
                | [] => false)
               && kws.any (fun kw => containsCI v kw))
          | [] => false)
       | _ => false)
    | none => false)

/-- Search for a token inside a tag's attribute region, with the `[^>]+`
prelude: at least one `>`-free character before the token. -/
def searchTokenIn (tok : Chars → Bool) : Chars → Bool
  | [] => false
  | s@(c :: rest) => tok s || (!(c = '>') && searchTokenIn tok rest)

def hasTokenAfterOne (tok : Chars → Bool) (region : Chars) : Bool :=
  match region with
  | [] => false
  | c :: rest => !(c = '>') && searchTokenIn tok rest

def paginationTokenAt : Chars → Bool :=
  classTokenContainsAt ["class".toList, "id".toList]
    ["pagination".toList, "pager".toList, "page-nav".toList]

def currentTokenAt : Chars → Bool :=
  classTokenContainsAt ["class".toList] ["current".toList, "active".toList]

/-- Split at the first of `</div>`, `</nav>`, `</ul>` (case-insensitive): the
lazy body capture of `REGEX.PAGINATION_CONTAINER` runs to the first closing
tag of any of the three names. -/
def splitAtCloseContainer : Chars → Option (Chars × Chars)
  | [] => none
  | s@(c :: rest) =>
    match stripAnyPrefixCI s ["</div>".toList, "</nav>".toList, "</ul>".toList] with
    | some after => some ([], after)
    | none =>
      match splitAtCloseContainer rest with
      | some (inner, after) => some (c :: inner, after)
      | none => none

/-- step of `REGEX.PAGINATION_CONTAINER`
(`<(?:div|nav|ul)[^>]+(?:class|id)\s*=\s*['"][^'"]*(?:pagination|pager|page-nav)[^'"]*['"][^>]*>(?<containerHtml>[\s\S]*?)<\/(?:div|nav|ul)>`,
flags `gi`).  The attribute region is taken up to the tag's `>` (quoted
values containing `>` are outside the model). -/
def containerStep (s : Chars) : Option (Chars × Chars) :=
  match s with
  | '<' :: r =>
    match stripAnyPrefixCI r ["div".toList, "nav".toList, "ul".toList] with
    | some r2 =>
      let region := r2.takeWhile (fun c => c ≠ '>')
      if hasTokenAfterOne paginationTokenAt region then
        match r2.drop region.length with
        | '>' :: body => splitAtCloseContainer body
        | _ => none
      else none
    | none => none
  | _ => none

/-- Continuation of `REGEX.PAGINATION_LI.next` after the current item's
`</li>`: `\s*<li[^>]*>\s*<a\s+(?<attributes>[^>]+)>`. -/
def liNextCont (s : Chars) : Option Chars :=
  match dropWs s with
  | '<' :: r =>
    match stripPrefixCI r "li".toList with
    | some r2 =>
      let region := r2.takeWhile (fun c => c ≠ '>')
      match r2.drop region.length with
      | '>' :: body => (anchorOpenAt (dropWs body)).map (fun p => p.1)
      | _ => none
    | none => none
  | _ => none

/-- The lazy `.*?<\/li>` of `REGEX.PAGINATION_LI.next` (dotall): try the
continuation at each successive `</li>` occurrence. -/
def liNextTail : Chars → Option Chars
  | [] => none
  | s@(_ :: rest) =>
    match stripPrefixCI s "</li>".toList with
    | some after =>
      (match liNextCont after with
       | some attrs => some attrs
       | none => liNextTail rest)
    | none => liNextTail rest

/-- `REGEX.PAGINATION_LI.next` at one position:
`<li[^>]+class\s*=\s*['"][^'"]*(?:current|active)[^'"]*['"][^>]*>.*?<\/li>\s*<li[^>]*>\s*<a\s+(?<attributes>[^>]+)>`
(flags `is`). -/
def liNextAt (s : Chars) : Option Chars :=
  match s with
  | '<' :: r =>
    match stripPrefixCI r "li".toList with
    | some r2 =>
      let region := r2.takeWhile (fun c => c ≠ '>')
      if hasTokenAfterOne currentTokenAt region then
        match r2.drop region.length with
        | '>' :: body => liNextTail body
        | _ => none
      else none
    | none => none
  | _ => none

/-- Continuation of `REGEX.PAGINATION_LI.prev` after the anchor's `</a>`:
`\s*<\/li>\s*<li[^>]+class\s*=\s*['"][^'"]*(?:current|active)[^'"]*['"][^>]*>`. -/
def liPrevCont (s : Chars) : Bool :=
  match stripPrefixCI (dropWs s) "</li>".toList with
  | some r =>
    (match dropWs r with
     | '<' :: r2 =>
       (match stripPrefixCI r2 "li".toList with
        | some r3 =>
          let region := r3.takeWhile (fun c => c ≠ '>')
          hasTokenAfterOne currentTokenAt region &&
            (match r3.drop region.length with
             | '>' :: _ => true
             | _ => false)
        | none => false)
     | _ => false)
  | none => false

def liPrevTail (attrs : Chars) : Chars → Option Chars
  | [] => none
  | s@(_ :: rest) =>
    match stripPrefixCI s "</a>".toList with
    | some after =>
      if liPrevCont after then some attrs else liPrevTail attrs rest
    | none => liPrevTail attrs rest

/-- `REGEX.PAGINATION_LI.prev` at one position:
`<li[^>]*>\s*<a\s+(?<attributes>[^>]+)>.*?<\/a>\s*<\/li>\s*<li[^>]+class\s*=\s*['"][^'"]*(?:current|active)[^'"]*['"][^>]*>`
(flags `is`). -/
def liPrevAt (s : Chars) : Option Chars :=
  match s with
  | '<' :: r =>
    match stripPrefixCI r "li".toList with
    | some r2 =>
      let region := r2.takeWhile (fun c => c ≠ '>')
      match r2.drop region.length with
      | '>' :: body =>
        match anchorOpenAt (dropWs body) with
        | some (attrs, after) => liPrevTail attrs after
        | none => none
      | _ => none
    | none => none
  | _ => none

/-- The current-page marker token of `REGEX.PAGINATION_FALLBACK`:
`class\s*=\s*['"](?:current|active)['"]` (exact value — no padding, and the
closing quote need not match the opening one) or
`aria-current\s*=\s*['"]page['"]`.  Returns the rest after the token. -/
def fbMarkerTokenAt (s : Chars) : Option Chars :=
  (match stripPrefixCI s "class".toList with
   | some s1 =>
     (match dropWs s1 with
      | '=' :: s2 =>
        (match dropWs s2 with
         | q :: s3 =>
           if q = dqChar || q = sqChar then
             match stripAnyPrefixCI s3 ["current".toList, "active".toList] with
             | some (q2 :: s5) =>
               if q2 = dqChar || q2 = sqChar then some s5 else none
             | _ => none
           else none
         | [] => none)
      | _ => none)
   | none => none)
  <|>
  (match stripPrefixCI s "aria-current".toList with
   | some s1 =>
     (match dropWs s1 with
      | '=' :: s2 =>
        (match dropWs s2 with
         | q :: s3 =>
           if q = dqChar || q = sqChar then
             match stripPrefixCI s3 "page".toList with
             | some (q2 :: s5) =>
               if q2 = dqChar || q2 = sqChar then some s5 else none
             | _ => none
           else none
         | [] => none)
      | _ => none)
   | none => none)

/-- Tail of `REGEX.PAGINATION_FALLBACK.next` after the marker token:
`\s*[^<]*\s*<\/(?:span|a|strong)>\s*<a\s+(?<attributes>[^>]+)>` — skip to the
next `<`, require a closing tag of one of the three names, then the anchor. -/
def fbNextFrom (s : Chars) : Option Chars :=
  let skip := s.dropWhile (fun c => c ≠ '<')
  match stripAnyPrefixCI skip ["</span>".toList, "</a>".toList, "</strong>".toList] with
  | some r => (anchorOpenAt (dropWs r)).map (fun p => p.1)
  | none => none

/-- Search for the marker token inside the `<span`/`<a` tag (`[^>]+` prelude:
the characters before the token must be `>`-free), trying the tail after each
candidate token (leftmost candidate first; the greedy engine tries the
rightmost first, which coincides whenever the tag holds one marker). -/
def fbNextSearchTok : Chars → Option Chars
  | [] => none
  | s@(c :: rest) =>
    match fbMarkerTokenAt s with
    | some after =>
      (match fbNextFrom after with
       | some attrs => some attrs
       | none => if c = '>' then none else fbNextSearchTok rest)
    | none => if c = '>' then none else fbNextSearchTok rest

/-- `REGEX.PAGINATION_FALLBACK.next` at one position:
`(?:<(?:span|a)[^>]+(?:class\s*=\s*['"](?:current|active)['"]|aria-current\s*=\s*['"]page['"])|strong)\s*[^<]*\s*<\/(?:span|a|strong)>\s*<a\s+(?<attributes>[^>]+)>`
(flag `i`; the second alternative is the bare word `strong`). -/
def fbNextAt (s : Chars) : Option Chars :=
  (match s with
   | '<' :: r =>
     match stripAnyPrefixCI r ["span".toList, "a".toList] with
     | some (c :: rest2) => if c = '>' then none else fbNextSearchTok rest2
     | _ => none
   | _ => none)
  <|>
  (match stripPrefixCI s "strong".toList with
   | some r => fbNextFrom r
   | none => none)

/-- Marker-group test for the prev fallback (its tail `\s*[^<]*` always
matches, so only the marker's existence counts). -/
def fbPrevSearchTok : Chars → Bool
  | [] => false
  | s@(c :: rest) =>
    (fbMarkerTokenAt s).isSome || (!(c = '>') && fbPrevSearchTok rest)

def fbPrevMarkerAt (s : Chars) : Bool :=
  (match s with
   | '<' :: r =>
     (match stripAnyPrefixCI r ["span".toList, "a".toList] with
      | some (c :: rest2) => !(c = '>') && fbPrevSearchTok rest2
      | _ => false)
   | _ => false)
  || (stripPrefixCI s "strong".toList).isSome

/-- The lazy `.*?<\/a>` of `REGEX.PAGINATION_FALLBACK.prev`: no dotall flag,
so the anchor's inner text must not cross a newline. -/
def fbPrevTail (attrs : Chars) : Chars → Option Chars
  | [] => none
  | s@(c :: rest) =>
    match stripPrefixCI s "</a>".toList with
    | some after =>
      if fbPrevMarkerAt (dropWs after) then some attrs
      else if c = '\n' || c = '\r' then none
      else fbPrevTail attrs rest
    | none =>
      if c = '\n' || c = '\r' then none else fbPrevTail attrs rest

/-- `REGEX.PAGINATION_FALLBACK.prev` at one position:
`<a\s+(?<attributes>[^>]+)>.*?<\/a>\s*(?:<(?:span|a)[^>]+(?:class\s*=\s*['"](?:current|active)['"]|aria-current\s*=\s*['"]page['"])|strong)\s*[^<]*`
(flag `i`, no dotall). -/
def fbPrevAt (s : Chars) : Option Chars :=
  match anchorOpenAt s with
  | some (attrs, after) => fbPrevTail attrs after
  | none => none

def liAt : Direction → Chars → Option Chars
  | .next => liNextAt
  | .prev => liPrevAt

def fbAt : Direction → Chars → Option Chars
  | .next => fbNextAt
  | .prev => fbPrevAt

/-! ### The six strategies -/

/-- Scan loop of `findLinkByRel`: skip a falsy (empty) attribute capture,
test the rel pattern, resolve, and continue on resolution failure. -/
def relLoop (base : Chars) (dir : Direction) : List Chars → Option Chars × List Chars
  | [] => (none, [])
  | attrs :: rest =>
    if attrs = [] then relLoop base dir rest
    else if relTest dir attrs then
      match extractAbsoluteHref attrs base with
      | (some u, l) => (some u, l)
      | (none, l) =>
        let (r, l2) := relLoop base dir rest
        (r, l ++ l2)
    else relLoop base dir rest

def findLinkByRel (html base : Chars) (dir : Direction) : Option Chars × List Chars :=
  relLoop base dir (scanAll pltStep html)

/-- Container loop of `findLinkByPaginationStructure`: per container, the
list-item rule's first match is resolved, then the fallback rule's first
match, then the next container. -/
def paginationContainerLoop (base : Chars) (dir : Direction) :
    List Chars → Option Chars × List Chars
  | [] => (none, [])
  | inner :: rest =>
    if inner = [] then paginationContainerLoop base dir rest
    else
      let li := match firstMatchPos (liAt dir) inner with
        | some attrs => extractAbsoluteHref attrs base
        | none => (none, [])
      match li with
      | (some u, l1) => (some u, l1)
      | (none, l1) =>
        let fb := match firstMatchPos (fbAt dir) inner with
          | some attrs => extractAbsoluteHref attrs base
          | none => (none, [])
        match fb with
        | (some u, l2) => (some u, l1 ++ l2)
        | (none, l2) =>
          let (r, l3) := paginationContainerLoop base dir rest
          (r, l1 ++ l2 ++ l3)

def findLinkByPaginationStructure (html base : Chars) (dir : Direction) :
    Option Chars × List Chars :=
  paginationContainerLoop base dir (scanAll containerStep html)

/-- Scan loop of `findLinkByText`: clean the inner text (strip tags, strip
entity references, trim), test the phrase pattern, resolve. -/
def textLoop (base : Chars) (dir : Direction) : List (Chars × Chars) → Option Chars × List Chars
  | [] => (none, [])
  | (attrs, inner) :: rest =>
    if attrs = [] ∨ inner = [] then textLoop base dir rest
    else
      let cleanText := trimWs (stripEntities (stripHtmlTags inner))
      if cleanText = [] then textLoop base dir rest
      else if textTest dir cleanText then
        match extractAbsoluteHref attrs base with
        | (some u, l) => (some u, l)
        | (none, l) =>
          let (r, l2) := textLoop base dir rest
          (r, l ++ l2)
      else textLoop base dir rest

def findLinkByText (html base : Chars) (dir : Direction) : Option Chars × List Chars :=
  textLoop base dir (scanAll anchorTagStep html)

/-- The structural test of `findLinkByClassName`:
`(classAttr && (classNameRegex ?? defaultRegex).test(classAttr)) ||
 (idAttr && defaultRegex.test(idAttr))` — the caller-supplied pattern (if
any) applies to `class` only; `id` is always tested against the default
pattern; empty attribute values are falsy. -/
def classNameCond (dir : Direction) (cnr : Option (Chars → Bool)) (attrs : Chars) : Bool :=
  (match extractAttribute attrs "class".toList with
   | some c => (!c.isEmpty) && (match cnr with
       | some f => f c
       | none => classNameTest dir c)
   | none => false)
  || (match extractAttribute attrs "id".toList with
      | some i => (!i.isEmpty) && classNameTest dir i
      | none => false)

/-- Scan loop of `findLinkByClassName`. -/
def classNameLoop (base : Chars) (dir : Direction) (cnr : Option (Chars → Bool)) :
    List Chars → Option Chars × List Chars
  | [] => (none, [])
  | attrs :: rest =>
    if attrs = [] then classNameLoop base dir cnr rest
    else if classNameCond dir cnr attrs then
      match extractAbsoluteHref attrs base with
      | (some u, l) => (some u, l)
      | (none, l) =>
        let (r, l2) := classNameLoop base dir cnr rest
        (r, l ++ l2)
    else classNameLoop base dir cnr rest

def findLinkByClassName (html base : Chars) (dir : Direction) (cnr : Option (Chars → Bool)) :
    Option Chars × List Chars :=
  classNameLoop base dir cnr (scanAll anchorOpenAt html)

/-- The structural test of `findLinkByAriaLabel`:
`ariaLabelAttr && textRegex.test(ariaLabelAttr)`. -/
def ariaLabelCond (dir : Direction) (attrs : Chars) : Bool :=
  match extractAttribute attrs "aria-label".toList with
  | some v => (!v.isEmpty) && textTest dir v
  | none => false

/-- Scan loop of `findLinkByAriaLabel`. -/
def ariaLabelLoop (base : Chars) (dir : Direction) : List Chars → Option Chars × List Chars
  | [] => (none, [])
  | attrs :: rest =>
    if attrs = [] then ariaLabelLoop base dir rest
    else if ariaLabelCond dir attrs then
      match extractAbsoluteHref attrs base with
      | (some u, l) => (some u, l)
      | (none, l) =>
        let (r, l2) := ariaLabelLoop base dir rest
        (r, l ++ l2)
    else ariaLabelLoop base dir rest

def findLinkByAriaLabel (html base : Chars) (dir : Direction) : Option Chars × List Chars :=
  ariaLabelLoop base dir (scanAll anchorOpenAt html)

/-- The per-image test of `findLinkByAltText`:
`altText && textRegex.test(altText.trim())`. -/
def altCond (dir : Direction) (img : Chars) : Bool :=
  match extractAttribute img "alt".toList with
  | some alt => (!alt.isEmpty) && textTest dir (trimWs alt)
  | none => false

/-- Inner image loop of `findLinkByAltText`: each matching `alt` resolves the
enclosing anchor's attributes; on failure the next image is tried. -/
def altImgLoop (attrs base : Chars) (dir : Direction) : List Chars → Option Chars × List Chars
  | [] => (none, [])
  | img :: rest =>
    if altCond dir img then
      match extractAbsoluteHref attrs base with
      | (some u, l) => (some u, l)
      | (none, l) =>
        let (r, l2) := altImgLoop attrs base dir rest
        (r, l ++ l2)
    else altImgLoop attrs base dir rest

def altLoop (base : Chars) (dir : Direction) : List (Chars × Chars) → Option Chars × List Chars
  | [] => (none, [])
  | (attrs, inner) :: rest =>
    if attrs = [] ∨ inner = [] then altLoop base dir rest
    else
      match altImgLoop attrs base dir (scanAll imgStep inner) with
      | (some u, l) => (some u, l)
      | (none, l) =>
        let (r, l2) := altLoop base dir rest
        (r, l ++ l2)

def findLinkByAltText (html base : Chars) (dir : Direction) : Option Chars × List Chars :=
  altLoop base dir (scanAll anchorTagStep html)

/-! ### The dispatcher -/

def runStrategy (m : Method) (html base : Chars) (dir : Direction) (opts : EngineOptions) :
    Option Chars × List Chars :=
  match m with
  | .rel => findLinkByRel html base dir
  | .pagination => findLinkByPaginationStructure html base dir
  | .text => findLinkByText html base dir
  | .className => findLinkByClassName html base dir opts.classNameRegex
  | .ariaLabel => findLinkByAriaLabel html base dir
  | .alt => findLinkByAltText html base dir

def defaultMethods : List Method :=
  [.rel, .pagination, .text, .className, .ariaLabel, .alt]

/-- Dispatch loop of `findLink`: strategies in the effective order, first
non-null result wins, later strategies not invoked. -/
def findLinkGo (html base : Chars) (dir : Direction) (opts : EngineOptions) :
    List Method → Option Chars × List Chars
  | [] => (none, [])
  | m :: ms =>
    match runStrategy m html base dir opts with
    | (some u, l) => (some u, l)
    | (none, l) =>
      let (r, l2) := findLinkGo html base dir opts ms
      (r, l ++ l2)

def findLink (html base : Chars) (dir : Direction) (opts : EngineOptions) :
    Option Chars × List Chars :=
  findLinkGo html base dir opts (opts.methods.getD defaultMethods)

def findNext (html base : Chars) (opts : EngineOptions) : Option Chars × List Chars :=
  findLink html base .next opts

def findPrev (html base : Chars) (opts : EngineOptions) : Option Chars × List Chars :=
  findLink html base .prev opts

/-! ### Constants and candidate formulas used in the statements -/

/-- The candidate URL produced by query-parameter detection for target key
`k` and adjacent value `adj` (the `urlObject.toString()` after
`params.set`). -/
def queryCandidateUrl (U : UrlObj) (k : Chars) (adj : Int) : Chars :=
  let q := serializeParams (setParam (parseForm U.query) k (natToChars adj.toNat))
  U.origin ++ U.pathname ++ (if q = [] then [] else '?' :: q) ++ U.hashStr

/-- The candidate URL produced by path-segment detection:
`origin + newPath + search + hash`. -/
def pathCandidateUrl (U : UrlObj) (stem : Chars) (adj : Int) : Chars :=
  U.origin ++ (stem ++ natToChars adj.toNat) ++ U.searchStr ++ U.hashStr

/-- Options with every field defaulted (no `verifyExists` setting, an
existence oracle refusing everything). -/
def noOpts : EngineOptions := {}

/-- Options with `verifyExists: false` (the probe is skipped). -/
def optsNoVerify : EngineOptions := { verifyExists := some false }

/-- Options whose existence oracle confirms every URL. -/
def optsAllExist : EngineOptions := { checkExists := fun _ => true }

def exBase : Chars := "https://example.com".toList

/-- An existence oracle that rejects exactly the query-parameter candidate of
`https://example.com/archive/2?page=7` going next, and confirms every other
URL. -/
def c1Opts : EngineOptions :=
  { checkExists := fun u => u ≠ "https://example.com/archive/2?page=8".toList }

/-- The second (resolvable) current/active adjacency of `c2Html`, alone in a
container of its own. -/
def c2TailHtml : Chars :=
  "<div class=\"pagination\"><li class=\"current\">5</li> <li><a href=\"/p/6\">6</a></li></div>".toList

/-- Two pagination containers: the first holds only an unresolvable
adjacency, the second a resolvable one. -/
def twoContainersHtml : Chars :=
  "<div class=\"pager\"><li class=\"current\">1</li> <li><a href=\"http://bad url/\">2</a></li></div><div class=\"pager\"><li class=\"current\">3</li> <li><a href=\"/p/4\">4</a></li></div>".toList

/-- One container whose li-rule match has an unresolvable href and whose
fallback-rule match resolves. -/
def liThenFallbackHtml : Chars :=
  "<div class=\"pager\"><li class=\"current\">1</li> <li><a href=\"http://bad url/\">2</a></li> <span class=\"current\">1</span> <a href=\"/f/2\">2</a></div>".toList

/-- The inner markup of `twoContainersHtml`'s first container. -/
def badLiContainerInner : Chars :=
  "<li class=\"current\">1</li> <li><a href=\"http://bad url/\">2</a></li>".toList

/-- The attribute text of the unresolvable anchor above. -/
def badHrefAttrs : Chars := "href=\"http://bad url/\"".toList

/-- HTML holding both a rel candidate and a text candidate (plus a pagination
container with no current marker), mirroring the priority test. -/
def mixedHtml : Chars :=
  "<a href=\"/from-text\">Next</a> <link rel=\"next\" href=\"/from-rel\"> <div class=\"pagination\"><a href=\"/from-pagination\">2</a></div>".toList

/-- A pagination container whose first current/active adjacency has an
unresolvable href and whose second has a resolvable one. -/
def c2Html : Chars :=
  "<div class=\"pagination\"><li class=\"current\">1</li> <li><a href=\"http://bad url/\">2</a></li> <li class=\"current\">5</li> <li><a href=\"/p/6\">6</a></li></div>".toList


set_option maxRecDepth 40000

/-! ## Helper lemmas -/

theorem takeWhile_append_eq {α : Type} (p : α → Bool) (a : List α) (d : α) (b : List α)
    (ha : ∀ c ∈ a, p c = true) (hd : p d = false) :
    (a ++ d :: b).takeWhile p = a := by
  induction a with
  | nil => simp [List.takeWhile_cons, hd]
  | cons c r ih =>
    simp only [List.cons_append, List.takeWhile_cons, ha c (List.mem_cons_self c r), if_true]
    exact congrArg (c :: ·) (ih (fun x hx => ha x (List.mem_cons_of_mem c hx)))

/-- Unfolding of `findUrlByQueryParam` once the URL has parsed and a target
parameter has been found. -/
theorem findUrlByQueryParam_eq (url : Chars) (dir : Direction) (opts : EngineOptions)
    (U : UrlObj) (k : Chars) (n : Int) (hU : parseUrlChars url = some U)
    (ht : findTargetParam (parseForm U.query) = some (k, n)) :
    findUrlByQueryParam url dir opts =
      (if (if dir = .next then n + 1 else n - 1) > 0 then
        if opts.verifyExists = some false
            || opts.checkExists (queryCandidateUrl U k (if dir = .next then n + 1 else n - 1))
        then (some (queryCandidateUrl U k (if dir = .next then n + 1 else n - 1)), ([] : List Chars))
        else (none, [])
      else (none, [])) := by
  unfold findUrlByQueryParam
  rw [hU]
  simp only [ht, queryCandidateUrl]

/-- Unfolding of `findUrlByPathSegment` once the URL has parsed and the path
pattern has matched. -/
theorem findUrlByPathSegment_eq (url : Chars) (dir : Direction) (opts : EngineOptions)
    (U : UrlObj) (stem ds : Chars) (hU : parseUrlChars url = some U)
    (hm : pathPageMatch (stripTrailingSlash U.pathname) = some (stem, ds)) :
    findUrlByPathSegment url dir opts =
      (if (if dir = .next then (natOfDigits ds : Int) + 1 else (natOfDigits ds : Int) - 1) > 0 then
        if opts.verifyExists = some false
            || opts.checkExists (pathCandidateUrl U stem
                (if dir = .next then (natOfDigits ds : Int) + 1 else (natOfDigits ds : Int) - 1))
        then (some (pathCandidateUrl U stem
                (if dir = .next then (natOfDigits ds : Int) + 1 else (natOfDigits ds : Int) - 1)),
              ([] : List Chars))
        else (none, [])
      else (none, [])) := by
  unfold findUrlByPathSegment
  rw [hU]
  simp only [hm, pathCandidateUrl]

/-! ## Claims about URL-pattern inference -/

/-- C4: query-parameter detection inspects `page`, `p`, `index` in that fixed
priority order; the first present whose value parses as an integer is the
target; the adjacent value is the current value ±1 by direction; an adjacent
value ≤ 0 is reported as not-found; `?page=2` yields `?page=3` (next) and
`?page=1` (prev) under existence confirmation, and prev from `?page=1` never
produces `?page=0`. -/
theorem c4_query_param_detection :
    (∀ params v n, getParam params "page".toList = some v → v ≠ [] →
        jsParseInt v = some n → findTargetParam params = some ("page".toList, n))
    ∧ (∀ url dir opts U k n, parseUrlChars url = some U →
        findTargetParam (parseForm U.query) = some (k, n) →
        (if dir = .next then n + 1 else n - 1) ≤ 0 →
        (findUrlByQueryParam url dir opts).1 = none)
    ∧ (findNextByUrl "https://example.com/search?page=2".toList optsAllExist).1
        = some "https://example.com/search?page=3".toList
    ∧ (findPrevByUrl "https://example.com/search?page=2".toList optsAllExist).1
        = some "https://example.com/search?page=1".toList
    ∧ (findUrlByQueryParam "https://example.com/search?page=1".toList .prev optsAllExist).1 = none
    ∧ (findPrevByUrl "https://example.com/search?page=1".toList optsAllExist).1 = none
    ∧ (findUrlByQueryParam "https://example.com/a?index=5&p=7".toList .next optsNoVerify).1
        = some "https://example.com/a?index=5&p=8".toList
    ∧ (findUrlByQueryParam "https://example.com/a?p=abc&index=4".toList .next optsNoVerify).1
        = some "https://example.com/a?p=abc&index=5".toList := by
  refine ⟨?_, ?_, by decide, by decide, by decide, by decide, by decide, by decide⟩
  · intro params v n h1 h2 h3
    unfold findTargetParam
    rw [findTargetParamGo, h1]
    simp [h2, h3]
  · intro url dir opts U k n hU ht hle
    rw [findUrlByQueryParam_eq url dir opts U k n hU ht]
    have hnot : ¬ ((if dir = .next then n + 1 else n - 1) > 0) := by omega
    simp [hnot]

/-- Witness for `c4_query_param_detection` at concrete inputs. -/
theorem c4_query_param_detection_witness :
    findTargetParam [("page".toList, "2".toList)] = some ("page".toList, 2)
    ∧ (findUrlByQueryParam "https://example.com/search?page=1".toList .prev optsAllExist).1
        = none :=
  ⟨c4_query_param_detection.1 [("page".toList, "2".toList)] "2".toList 2 (by decide) (by decide)
      (by decide),
   c4_query_param_detection.2.1 "https://example.com/search?page=1".toList .prev optsAllExist
     ⟨"https".toList, "example.com".toList, "/search".toList, "page=1".toList, []⟩
     "page".toList 1 (by decide) (by decide) (by decide)⟩

/-- C5: path-segment detection strips a single trailing slash, matches a
trailing digit run preceded by `/`, `-` or `_`, steps the number by
direction, rejects a non-positive result, and rebuilds
`origin + newPath + search + hash` with those parts unmodified;
`/archive/2` yields `/archive/3` (next) and `/archive/1` (prev). -/
theorem c5_path_segment_detection :
    (∀ stem ds c, ds ≠ [] → (∀ d ∈ ds, isDigitChar d = true) → stem.getLast? = some c →
        (c = '/' ∨ c = '-' ∨ c = '_') → pathPageMatch (stem ++ ds) = some (stem, ds))
    ∧ (∀ url dir opts U stem ds adj, parseUrlChars url = some U →
        pathPageMatch (stripTrailingSlash U.pathname) = some (stem, ds) →
        adj = (if dir = .next then (natOfDigits ds : Int) + 1 else (natOfDigits ds : Int) - 1) →
        ((0 < adj →
            (opts.verifyExists = some false ∨ opts.checkExists (pathCandidateUrl U stem adj) = true) →
            (findUrlByPathSegment url dir opts).1 = some (pathCandidateUrl U stem adj))
         ∧ (adj ≤ 0 → (findUrlByPathSegment url dir opts).1 = none)))
    ∧ (findNextByUrl "https://example.com/archive/2".toList optsAllExist).1
        = some "https://example.com/archive/3".toList
    ∧ (findPrevByUrl "https://example.com/archive/2".toList optsAllExist).1
        = some "https://example.com/archive/1".toList
    ∧ (findUrlByPathSegment "https://example.com/archive/2/".toList .next optsNoVerify).1
        = some "https://example.com/archive/3".toList
    ∧ (findUrlByPathSegment "https://example.com/a-12?q=z#top".toList .next optsNoVerify).1
        = some "https://example.com/a-13?q=z#top".toList := by
  refine ⟨?_, ?_, by decide, by decide, by decide, by decide⟩
  · intro stem ds c hds hdig hlast hc
    have hstemne : stem ≠ [] := by
      intro h
      rw [h] at hlast
      simp at hlast
    obtain ⟨t, ht⟩ : ∃ t, stem.reverse = c :: t := by
      cases hrev : stem.reverse with
      | nil => exact absurd (List.reverse_eq_nil_iff.mp hrev) hstemne
      | cons x t =>
        have hx : stem.reverse.head? = some x := by rw [hrev]; rfl
        rw [List.head?_reverse, hlast] at hx
        exact ⟨t, by rw [(Option.some_inj.mp hx).symm]⟩
    have hcdig : isDigitChar c = false := by
      rcases hc with h | h | h <;> rw [h] <;> decide
    have hrev : (stem ++ ds).reverse = ds.reverse ++ c :: t := by
      rw [List.reverse_append, ht]
    have htake : (stem ++ ds).reverse.takeWhile isDigitChar = ds.reverse := by
      rw [hrev]
      exact takeWhile_append_eq isDigitChar ds.reverse c t
        (fun x hx => hdig x (List.mem_reverse.mp hx)) hcdig
    have hrds : ds.reverse ≠ [] := by
      simpa using hds
    have hdrop : (stem ++ ds).reverse.drop (ds.reverse.length) = c :: t := by
      rw [hrev]
      exact List.drop_left ds.reverse (c :: t)
    have hsep : (c = '/' || c = '-' || c = '_') = true := by
      rcases hc with h | h | h <;> subst h <;> decide
    have htk : (stem ++ ds).take ((stem ++ ds).length - ds.reverse.length) = stem := by
      rw [List.length_append, List.length_reverse, Nat.add_sub_cancel]
      exact List.take_left stem ds
    simp only [pathPageMatch, htake, hdrop, List.reverse_reverse]
    rw [if_neg hrds, if_pos hsep, htk]
  · intro url dir opts U stem ds adj hU hm hadj
    rw [hadj]
    constructor
    · intro hpos hver
      rw [findUrlByPathSegment_eq url dir opts U stem ds hU hm]
      rw [if_pos hpos]
      have : (opts.verifyExists = some false
          || opts.checkExists (pathCandidateUrl U stem
              (if dir = .next then (natOfDigits ds : Int) + 1
               else (natOfDigits ds : Int) - 1))) = true := by
        rcases hver with h | h <;> simp [h]
      rw [if_pos this]
    · intro hle
      rw [findUrlByPathSegment_eq url dir opts U stem ds hU hm]
      have hnot : ¬ ((if dir = .next then (natOfDigits ds : Int) + 1
          else (natOfDigits ds : Int) - 1) > 0) := by omega
      simp [hnot]

/-- Witness for `c5_path_segment_detection` at concrete inputs. -/
theorem c5_path_segment_detection_witness :
    pathPageMatch "/archive/2".toList = some ("/archive/".toList, "2".toList)
    ∧ (findUrlByPathSegment "https://example.com/archive/2".toList .next optsAllExist).1
        = some "https://example.com/archive/3".toList :=
  ⟨c5_path_segment_detection.1 "/archive/".toList "2".toList '/' (by decide) (by decide)
      (by decide) (Or.inl rfl),
   by
    have h := (c5_path_segment_detection.2.1 "https://example.com/archive/2".toList .next
        optsAllExist
        ⟨"https".toList, "example.com".toList, "/archive/2".toList, [], []⟩
        "/archive/".toList "2".toList 3 (by decide) (by decide) (by decide)).1
        (by decide) (Or.inr (by decide))
    rw [h]
    decide⟩

/-- When query-parameter detection returns null, `findUrlByPattern` falls
through to path-segment detection. -/
theorem findUrlByPattern_fst_of_query_none (url : Chars) (dir : Direction)
    (opts : EngineOptions) (h : (findUrlByQueryParam url dir opts).1 = none) :
    (findUrlByPattern url dir opts).1 = (findUrlByPathSegment url dir opts).1 := by
  unfold findUrlByPattern
  cases hq : findUrlByQueryParam url dir opts with
  | mk r l =>
    rw [hq] at h
    simp only at h
    subst h
    cases hp : findUrlByPathSegment url dir opts with
    | mk r2 l2 => simp

/-- Rejection of an identified query-parameter candidate (non-positive
adjacent value, or failed existence verification with verification on) makes
`findUrlByQueryParam` return null. -/
theorem findUrlByQueryParam_none_of_rejected (url : Chars) (dir : Direction)
    (opts : EngineOptions) (U : UrlObj) (k : Chars) (n : Int)
    (hU : parseUrlChars url = some U)
    (ht : findTargetParam (parseForm U.query) = some (k, n))
    (hrej : (if dir = .next then n + 1 else n - 1) ≤ 0 ∨
      (opts.verifyExists ≠ some false ∧
        opts.checkExists (queryCandidateUrl U k (if dir = .next then n + 1 else n - 1)) = false)) :
    (findUrlByQueryParam url dir opts).1 = none := by
  rw [findUrlByQueryParam_eq url dir opts U k n hU ht]
  rcases hrej with hle | ⟨hv, hc⟩
  · have hnot : ¬ ((if dir = .next then n + 1 else n - 1) > 0) := by omega
    simp [hnot]
  · by_cases hpos : (if dir = .next then n + 1 else n - 1) > 0
    · rw [if_pos hpos]
      have : (opts.verifyExists = some false
          || opts.checkExists (queryCandidateUrl U k (if dir = .next then n + 1 else n - 1)))
            = false := by
        simp [hc]
        intro hfalse
        exact absurd hfalse hv
      rw [this]
      simp
    · simp [hpos]

/-- C1 (counterexample): for `https://example.com/archive/2?page=7` going
next, query-parameter detection identifies the target parameter `page` and
produces the structurally valid candidate `...?page=8`; existence
verification (enabled) rejects that candidate — and yet `findNextByUrl` does
not return not-found: path-segment detection is attempted and its candidate
is returned. -/
theorem c1_counterexample :
    parseUrlChars "https://example.com/archive/2?page=7".toList
        = some ⟨"https".toList, "example.com".toList, "/archive/2".toList, "page=7".toList, []⟩
    ∧ findTargetParam (parseForm "page=7".toList) = some ("page".toList, 7)
    ∧ c1Opts.verifyExists ≠ some false
    ∧ queryCandidateUrl
        ⟨"https".toList, "example.com".toList, "/archive/2".toList, "page=7".toList, []⟩
        "page".toList 8 = "https://example.com/archive/2?page=8".toList
    ∧ c1Opts.checkExists "https://example.com/archive/2?page=8".toList = false
    ∧ (findNextByUrl "https://example.com/archive/2?page=7".toList c1Opts).1
        = some "https://example.com/archive/3?page=7".toList := by decide

/-- C1 (amended): when query-parameter detection identifies a target
parameter but its candidate is rejected (adjacent value ≤ 0, or existence
verification does not confirm it), the candidate is discarded and
`findUrlByQueryParam` reports not-found — after which path-segment detection
IS attempted: the overall `findNextByUrl`/`findPrevByUrl` result equals the
path-segment result, and is not-found only when that is also not-found. -/
theorem c1_rejected_query_falls_through_to_path :
    (∀ url dir opts U k n, parseUrlChars url = some U →
        findTargetParam (parseForm U.query) = some (k, n) →
        ((if dir = .next then n + 1 else n - 1) ≤ 0 ∨
          (opts.verifyExists ≠ some false ∧
            opts.checkExists (queryCandidateUrl U k (if dir = .next then n + 1 else n - 1))
              = false)) →
        (findUrlByQueryParam url dir opts).1 = none
          ∧ (findUrlByPattern url dir opts).1 = (findUrlByPathSegment url dir opts).1)
    ∧ (findUrlByPathSegment "https://example.com/search?page=1".toList .prev optsAllExist).1
        = none
    ∧ (findPrevByUrl "https://example.com/search?page=1".toList optsAllExist).1 = none := by
  refine ⟨?_, by decide, by decide⟩
  intro url dir opts U k n hU ht hrej
  have hq := findUrlByQueryParam_none_of_rejected url dir opts U k n hU ht hrej
  exact ⟨hq, findUrlByPattern_fst_of_query_none url dir opts hq⟩

/-- Witness for `c1_rejected_query_falls_through_to_path` at a concrete
input (prev from `?page=1`: the adjacent value 0 is rejected). -/
theorem c1_rejected_query_falls_through_to_path_witness :
    (findUrlByQueryParam "https://example.com/search?page=1".toList .prev optsAllExist).1 = none
    ∧ (findUrlByPattern "https://example.com/search?page=1".toList .prev optsAllExist).1
        = (findUrlByPathSegment "https://example.com/search?page=1".toList .prev optsAllExist).1 :=
  c1_rejected_query_falls_through_to_path.1
    "https://example.com/search?page=1".toList .prev optsAllExist
    ⟨"https".toList, "example.com".toList, "/search".toList, "page=1".toList, []⟩
    "page".toList 1 (by decide) (by decide) (Or.inl (by decide))

/-- `setParamReplace` leaves the entries with a different key untouched (as a
sublist, in order). -/
theorem setParamReplace_filter (l : List (Chars × Chars)) (k v : Chars) :
    (setParamReplace l k v).filter (fun p => ¬ p.1 = k)
      = l.filter (fun p => ¬ p.1 = k) := by
  induction l with
  | nil => rfl
  | cons hd r ih =>
    obtain ⟨k2, v2⟩ := hd
    by_cases hk : k2 = k
    · simp [setParamReplace, hk, List.filter_filter]
    · simp only [decide_not] at ih
      simp [setParamReplace, hk, ih]

/-- With at most one occurrence of the key, `setParamReplace` preserves the
length and every other entry's exact position. -/
theorem setParamReplace_get (l : List (Chars × Chars)) (k v : Chars)
    (hcount : l.countP (fun p => p.1 = k) ≤ 1) :
    (setParamReplace l k v).length = l.length
      ∧ ∀ (i : Nat) (p : Chars × Chars), l[i]? = some p → ¬ p.1 = k →
          (setParamReplace l k v)[i]? = some p := by
  induction l with
  | nil => exact ⟨rfl, by intro i p h; simp at h⟩
  | cons hd r ih =>
    obtain ⟨k2, v2⟩ := hd
    by_cases hk : k2 = k
    · have hzero : r.countP (fun p => p.1 = k) = 0 := by
        rw [List.countP_cons] at hcount
        have hone : (if (fun p => (p.1 = k : Bool)) (k2, v2) = true then 1 else 0) = 1 := by
          simp [hk]
        rw [hone] at hcount
        omega
      have hr : r.filter (fun p => ¬ p.1 = k) = r := by
        rw [List.filter_eq_self]
        intro p hp
        have := List.countP_eq_zero.mp hzero p hp
        simpa using this
      simp only [decide_not] at hr
      constructor
      · simp [setParamReplace, hk, hr]
      · intro i p hget hne
        cases i with
        | zero =>
          simp only [List.getElem?_cons_zero, Option.some_inj] at hget
          rw [← hget] at hne
          exact absurd hk hne
        | succ j =>
          simp only [List.getElem?_cons_succ] at hget
          simp [setParamReplace, hk, hr]
          exact hget
    · have hcr : r.countP (fun p => p.1 = k) ≤ 1 := by
        rw [List.countP_cons] at hcount
        omega
      obtain ⟨ihlen, ihget⟩ := ih hcr
      constructor
      · simp [setParamReplace, hk, ihlen]
      · intro i p hget hne
        cases i with
        | zero =>
          simp only [List.getElem?_cons_zero, Option.some_inj] at hget
          simp [setParamReplace, hk, ← hget]
        | succ j =>
          simp only [List.getElem?_cons_succ] at hget
          simp only [setParamReplace, if_neg hk, List.getElem?_cons_succ]
          exact ihget j p hget hne

/-- C6 (counterexample): rewriting `page` in
`https://example.com/?page=2&page=9&x=1` yields `...?page=3&x=1` — the other
parameter `x` sat at position 2 of the input query but the candidate query
has no entry at position 2, so `x` did not keep its position (the duplicate
`page=9` was removed by `URLSearchParams.set`). -/
theorem c6_position_counterexample :
    (findUrlByQueryParam "https://example.com/?page=2&page=9&x=1".toList .next optsNoVerify).1
      = some "https://example.com/?page=3&x=1".toList
    ∧ (parseForm "page=2&page=9&x=1".toList)[2]? = some ("x".toList, "1".toList)
    ∧ "x".toList ≠ "page".toList
    ∧ (parseForm "page=3&x=1".toList)[2]? = none := by decide

/-- C6 (amended): the candidate produced by query-parameter detection is the
input URL rebuilt with `URLSearchParams.set` applied to its parameter list;
`set` keeps every parameter with a different key, with its value, in the same
relative order — and in the same absolute position whenever the target key
occurs at most once; occurrences of the target key after the first are
removed, which shifts the absolute positions of later parameters. -/
theorem c6_rewrite_preserves_other_params :
    (∀ l k v, (setParam l k v).filter (fun p => ¬ p.1 = k)
        = l.filter (fun p => ¬ p.1 = k))
    ∧ (∀ l k v, l.countP (fun p => p.1 = k) ≤ 1 → l.any (fun p => p.1 = k) = true →
        (setParam l k v).length = l.length
          ∧ ∀ (i : Nat) (p : Chars × Chars), l[i]? = some p → ¬ p.1 = k →
              (setParam l k v)[i]? = some p)
    ∧ (∀ url dir opts U k n u, parseUrlChars url = some U →
        findTargetParam (parseForm U.query) = some (k, n) →
        (findUrlByQueryParam url dir opts).1 = some u →
        u = queryCandidateUrl U k (if dir = .next then n + 1 else n - 1))
    ∧ (findUrlByQueryParam "https://example.com/?a=1&page=2&b=2".toList .next optsNoVerify).1
        = some "https://example.com/?a=1&page=3&b=2".toList := by
  refine ⟨?_, ?_, ?_, by decide⟩
  · intro l k v
    unfold setParam
    by_cases hany : l.any (fun p => p.1 = k) = true
    · rw [if_pos hany]
      exact setParamReplace_filter l k v
    · rw [if_neg hany]
      rw [List.filter_append]
      simp
  · intro l k v hcount hany
    unfold setParam
    rw [if_pos hany]
    exact setParamReplace_get l k v hcount
  · intro url dir opts U k n u hU ht hsome
    rw [findUrlByQueryParam_eq url dir opts U k n hU ht] at hsome
    by_cases hpos : (if dir = .next then n + 1 else n - 1) > 0
    · rw [if_pos hpos] at hsome
      by_cases hver : (opts.verifyExists = some false
          || opts.checkExists (queryCandidateUrl U k (if dir = .next then n + 1 else n - 1)))
            = true
      · rw [if_pos hver] at hsome
        simp only at hsome
        exact (Option.some_inj.mp hsome).symm
      · rw [if_neg hver] at hsome
        simp at hsome
    · rw [if_neg hpos] at hsome
      simp at hsome

/-- Witness for `c6_rewrite_preserves_other_params` at concrete inputs. -/
theorem c6_rewrite_preserves_other_params_witness :
    (setParam [("a".toList, "1".toList), ("page".toList, "2".toList)] "page".toList
          "3".toList).filter (fun p => ¬ p.1 = "page".toList)
      = [("a".toList, "1".toList), ("page".toList, "2".toList)].filter
          (fun p => ¬ p.1 = "page".toList)
    ∧ (setParam [("a".toList, "1".toList), ("page".toList, "2".toList)] "page".toList
          "3".toList).length
        = [("a".toList, "1".toList), ("page".toList, "2".toList)].length
    ∧ "https://example.com/?a=1&page=3&b=2".toList
        = queryCandidateUrl
            ⟨"https".toList, "example.com".toList, "/".toList, "a=1&page=2&b=2".toList, []⟩
            "page".toList 3 :=
  ⟨c6_rewrite_preserves_other_params.1
      [("a".toList, "1".toList), ("page".toList, "2".toList)] "page".toList "3".toList,
   (c6_rewrite_preserves_other_params.2.1
      [("a".toList, "1".toList), ("page".toList, "2".toList)] "page".toList "3".toList
      (by decide) (by decide)).1,
   c6_rewrite_preserves_other_params.2.2.1
     "https://example.com/?a=1&page=2&b=2".toList .next optsNoVerify
     ⟨"https".toList, "example.com".toList, "/".toList, "a=1&page=2&b=2".toList, []⟩
     "page".toList 2 "https://example.com/?a=1&page=3&b=2".toList
     (by decide) (by decide) (by decide)⟩

/-! ## Claims about href extraction and resolution -/

/-- C8: a structurally matching candidate whose href does not resolve yields
exactly one warning from the resolver, whose message embeds the offending
href value and the base URL; the embedding is total, so no fatal error can
arise; and on the test document holding only that candidate, `findNext` emits
exactly one warning over the whole run and still returns not-found. -/
theorem c8_invalid_href_single_warning :
    (∀ attrs base href, extractAttribute attrs hrefName = some href → href ≠ [] →
        jsResolve href base = none →
        extractAbsoluteHref attrs base = (none, [invalidUrlWarnMsg href base]))
    ∧ (∀ href base, ∃ a b c, invalidUrlWarnMsg href base = a ++ href ++ b ++ base ++ c)
    ∧ findNext "<a href=\"http://invalid url.com\">Next</a>".toList exBase noOpts
        = (none, [invalidUrlWarnMsg "http://invalid url.com".toList exBase]) := by
  refine ⟨?_, ?_, by decide⟩
  · intro attrs base href h1 h2 h3
    unfold extractAbsoluteHref
    rw [h1]
    simp [h2, h3]
  · intro href base
    refine ⟨"Invalid URL ".toList ++ [sqChar], sqChar :: " for base ".toList ++ [sqChar],
      [sqChar], ?_⟩
    simp [invalidUrlWarnMsg]

/-- Witness for `c8_invalid_href_single_warning` at a concrete input. -/
theorem c8_invalid_href_single_warning_witness :
    extractAbsoluteHref "href=\"http://invalid url.com\"".toList exBase
      = (none, [invalidUrlWarnMsg "http://invalid url.com".toList exBase])
    ∧ ∃ a b c, invalidUrlWarnMsg "http://invalid url.com".toList exBase
        = a ++ "http://invalid url.com".toList ++ b ++ exBase ++ c :=
  ⟨c8_invalid_href_single_warning.1 "href=\"http://invalid url.com\"".toList exBase
      "http://invalid url.com".toList (by decide) (by decide) (by decide),
   c8_invalid_href_single_warning.2.1 "http://invalid url.com".toList exBase⟩

/-- C9: the attribute lookup is an unanchored substring search, so a longer
attribute whose name ends in the requested name can supply the value, and the
textually first occurrence wins: for any quote-free value `v`,
`data-href="v" ...` answers an `href` lookup with `v`; concretely,
`<a data-href="/a" rel="next" href="/b">` makes `findNext` return `/a`. -/
theorem c9_unanchored_attribute_lookup :
    (∀ v rest, (∀ c ∈ v, ¬ (c = dqChar ∨ c = sqChar)) →
        extractAttribute ("data-href=".toList ++ dqChar :: (v ++ dqChar :: rest))
            "href".toList = some v)
    ∧ extractAttribute "data-href=\"/a\" rel=\"next\" href=\"/b\"".toList "href".toList
        = some "/a".toList
    ∧ (findNext "<a data-href=\"/a\" rel=\"next\" href=\"/b\">x</a>".toList exBase noOpts).1
        = some "https://example.com/a".toList := by
  refine ⟨?_, by decide, by decide⟩
  intro v rest hv
  have htw : (v ++ dqChar :: rest).takeWhile (fun c => !decide (c = dqChar) && !decide (c = sqChar)) = v :=
    takeWhile_append_eq _ v dqChar rest (fun c hc => by simpa using hv c hc) (by decide)
  have hdrop : (v ++ dqChar :: rest).drop v.length = dqChar :: rest :=
    List.drop_left v (dqChar :: rest)
  simp only [extractAttribute, extractAttributeGo, matchAttrValueAt]
  simp +decide [stripPrefixCI, lcChar, dropWs]
  rw [htw, hdrop]
  simp

/-- Witness for `c9_unanchored_attribute_lookup` at a concrete value. -/
theorem c9_unanchored_attribute_lookup_witness :
    extractAttribute ("data-href=".toList ++ dqChar :: ("/a".toList ++ dqChar :: " x".toList))
        "href".toList = some "/a".toList :=
  c9_unanchored_attribute_lookup.1 "/a".toList " x".toList (by decide)

/-- C10: an anchor with `href=""` is treated exactly like one with no href:
the empty reference is never resolved, no warning is emitted, and the scan
continues to the next occurrence. -/
theorem c10_empty_href_treated_as_missing :
    (∀ attrs base, extractAttribute attrs hrefName = some [] →
        extractAbsoluteHref attrs base = (none, []))
    ∧ (∀ base dir attrs occs, extractAttribute attrs hrefName = some [] →
        relLoop base dir (attrs :: occs) = relLoop base dir occs)
    ∧ findNext "<a href=\"\" rel=\"next\">x</a><a href=\"/b\" rel=\"next\">y</a>".toList
        exBase noOpts
        = (some "https://example.com/b".toList, []) := by
  have h1 : ∀ attrs base, extractAttribute attrs hrefName = some [] →
      extractAbsoluteHref attrs base = (none, []) := by
    intro attrs base h
    unfold extractAbsoluteHref
    rw [h]
    simp
  refine ⟨h1, ?_, by decide⟩
  intro base dir attrs occs h
  by_cases ha : attrs = []
  · simp [relLoop, ha]
  · rw [relLoop, if_neg ha]
    by_cases ht : relTest dir attrs = true
    · rw [if_pos ht]
      cases hrl : relLoop base dir occs with
      | mk r l2 => simp [h1 attrs base h, hrl]
    · rw [if_neg ht]

/-- Witness for `c10_empty_href_treated_as_missing` at a concrete input. -/
theorem c10_empty_href_treated_as_missing_witness :
    extractAbsoluteHref "href=\"\" rel=\"next\"".toList exBase = (none, [])
    ∧ relLoop exBase .next ["href=\"\" rel=\"next\"".toList] = relLoop exBase .next [] :=
  ⟨c10_empty_href_treated_as_missing.1 "href=\"\" rel=\"next\"".toList exBase (by decide),
   c10_empty_href_treated_as_missing.2.1 exBase .next "href=\"\" rel=\"next\"".toList []
     (by decide)⟩

/-! ## Claims about the strategies and the dispatcher -/

/-- C3: `findNext`/`findPrev` invoke the strategies in the caller-supplied
order (defaulting to rel, pagination, text, className, aria-label, alt),
return the first non-not-found result without consulting later strategies,
and return not-found when every listed strategy does; with candidates for two
strategies present, whichever strategy is earlier in the effective order
wins. -/
theorem c3_dispatch_order :
    (∀ html base dir opts, (∀ m ∈ opts.methods.getD defaultMethods,
        (runStrategy m html base dir opts).1 = none) →
        (findLink html base dir opts).1 = none)
    ∧ (∀ html base dir opts ms1 m ms2 u, opts.methods.getD defaultMethods = ms1 ++ m :: ms2 →
        (∀ m2 ∈ ms1, (runStrategy m2 html base dir opts).1 = none) →
        (runStrategy m html base dir opts).1 = some u →
        (findLink html base dir opts).1 = some u)
    ∧ (findLinkByRel mixedHtml exBase .next).1 = some "https://example.com/from-rel".toList
    ∧ (findLinkByText mixedHtml exBase .next).1 = some "https://example.com/from-text".toList
    ∧ (findNext mixedHtml exBase noOpts).1 = some "https://example.com/from-rel".toList
    ∧ (findNext mixedHtml exBase { methods := some [.text, .rel] }).1
        = some "https://example.com/from-text".toList
    ∧ (findNext mixedHtml exBase { methods := some [.rel, .text] }).1
        = some "https://example.com/from-rel".toList
    ∧ (findNext "<body><p>No links here.</p></body>".toList exBase noOpts).1 = none := by
  have hgo_none : ∀ (ms : List Method) html base dir opts,
      (∀ m ∈ ms, (runStrategy m html base dir opts).1 = none) →
      (findLinkGo html base dir opts ms).1 = none := by
    intro ms html base dir opts
    induction ms with
    | nil => intro _; rfl
    | cons m ms ih =>
      intro h
      have hm := h m (List.mem_cons_self m ms)
      cases hs : runStrategy m html base dir opts with
      | mk r l =>
        rw [hs] at hm
        simp only at hm
        subst hm
        have ihr := ih (fun m2 hm2 => h m2 (List.mem_cons_of_mem m hm2))
        cases hgo : findLinkGo html base dir opts ms with
        | mk r2 l2 =>
          rw [hgo] at ihr
          simp only at ihr
          subst ihr
          simp [findLinkGo, hs, hgo]
  have hgo_some : ∀ (ms1 : List Method) m ms2 html base dir opts u,
      (∀ m2 ∈ ms1, (runStrategy m2 html base dir opts).1 = none) →
      (runStrategy m html base dir opts).1 = some u →
      (findLinkGo html base dir opts (ms1 ++ m :: ms2)).1 = some u := by
    intro ms1
    induction ms1 with
    | nil =>
      intro m ms2 html base dir opts u _ hm
      cases hs : runStrategy m html base dir opts with
      | mk r l =>
        rw [hs] at hm
        simp only at hm
        subst hm
        simp [findLinkGo, hs]
    | cons m1 ms1 ih =>
      intro m ms2 html base dir opts u h hm
      have h1 := h m1 (List.mem_cons_self m1 ms1)
      cases hs1 : runStrategy m1 html base dir opts with
      | mk r l =>
        rw [hs1] at h1
        simp only at h1
        subst h1
        have ihr := ih m ms2 html base dir opts u
          (fun m2 hm2 => h m2 (List.mem_cons_of_mem m1 hm2)) hm
        cases hgo : findLinkGo html base dir opts (ms1 ++ m :: ms2) with
        | mk r2 l2 =>
          rw [hgo] at ihr
          simp only at ihr
          subst ihr
          simp [findLinkGo, hs1, hgo]
  refine ⟨?_, ?_, by decide, by decide, by decide, by decide, by decide, by decide⟩
  · intro html base dir opts h
    unfold findLink
    exact hgo_none _ html base dir opts h
  · intro html base dir opts ms1 m ms2 u hms h hm
    unfold findLink
    rw [hms]
    exact hgo_some ms1 m ms2 html base dir opts u h hm

/-- Witness for `c3_dispatch_order` at concrete inputs: with both a text and
a rel candidate present and the custom order `[text, rel]`, the text strategy
(earlier in the order) supplies the result; and a document with no candidate
at all yields not-found. -/
theorem c3_dispatch_order_witness :
    (findLink mixedHtml exBase .next { methods := some [.text, .rel] }).1
        = some "https://example.com/from-text".toList
    ∧ (findLink "<body><p>No links here.</p></body>".toList exBase .next noOpts).1 = none :=
  ⟨c3_dispatch_order.2.1 mixedHtml exBase .next { methods := some [.text, .rel] }
      [] .text [.rel] "https://example.com/from-text".toList rfl
      (by intro m2 hm2; simp at hm2) (by decide),
   c3_dispatch_order.1 "<body><p>No links here.</p></body>".toList exBase .next noOpts
     (by decide)⟩

/-- C2 (counterexample): in `c2Html`'s single pagination container the first
current/active li adjacency has an unresolvable href while a later adjacency
in the same container resolves (shown by giving it its own container); the
strategy nevertheless returns not-found — the scan does not continue to the
next matching occurrence within the container. -/
theorem c2_counterexample :
    (findNext c2Html exBase { methods := some [.pagination] }).1 = none
    ∧ (findNext c2TailHtml exBase { methods := some [.pagination] }).1
        = some "https://example.com/p/6".toList := by decide

/-- When the enclosing anchor's href does not resolve, the alt strategy's
inner image loop can never succeed: every matching image resolves the same
anchor attributes. -/
theorem altImgLoop_none (attrs base : Chars) (dir : Direction)
    (hE : (extractAbsoluteHref attrs base).1 = none) :
    ∀ imgs, (altImgLoop attrs base dir imgs).1 = none := by
  intro imgs
  induction imgs with
  | nil => simp [altImgLoop]
  | cons img rest ih =>
    rw [altImgLoop]
    by_cases ht : altCond dir img = true
    · rw [if_pos ht]
      cases hEp : extractAbsoluteHref attrs base with
      | mk r l =>
        rw [hEp] at hE
        simp only at hE
        subst hE
        cases hrl : altImgLoop attrs base dir rest with
        | mk r2 l2 =>
          rw [hrl] at ih
          simp only at ih
          subst ih
          simp [hrl]
    · rw [if_neg ht]
      exact ih

/-- C2 (amended): for each of the rel, text, className, aria-label and alt
strategies an occurrence whose href does not resolve is skipped and the scan
continues with the remaining occurrences in document order; for
pagination-structure the scan continues from the li rule to the fallback rule
and then to later containers — a container whose rule matches both fail to
resolve is skipped whole — but a failed first li-rule match is never retried
at later occurrences within the same container. -/
theorem c2_unresolvable_href_scan_continues :
    (∀ base dir attrs occs, (extractAbsoluteHref attrs base).1 = none →
        (relLoop base dir (attrs :: occs)).1 = (relLoop base dir occs).1)
    ∧ (∀ base dir attrs inner occs, (extractAbsoluteHref attrs base).1 = none →
        (textLoop base dir ((attrs, inner) :: occs)).1 = (textLoop base dir occs).1)
    ∧ (∀ base dir cnr attrs occs, (extractAbsoluteHref attrs base).1 = none →
        (classNameLoop base dir cnr (attrs :: occs)).1 = (classNameLoop base dir cnr occs).1)
    ∧ (∀ base dir attrs occs, (extractAbsoluteHref attrs base).1 = none →
        (ariaLabelLoop base dir (attrs :: occs)).1 = (ariaLabelLoop base dir occs).1)
    ∧ (∀ base dir attrs inner occs, (extractAbsoluteHref attrs base).1 = none →
        (altLoop base dir ((attrs, inner) :: occs)).1 = (altLoop base dir occs).1)
    ∧ (∀ base dir inner rest,
        (∀ attrs, firstMatchPos (liAt dir) inner = some attrs →
          (extractAbsoluteHref attrs base).1 = none) →
        (∀ attrs, firstMatchPos (fbAt dir) inner = some attrs →
          (extractAbsoluteHref attrs base).1 = none) →
        (paginationContainerLoop base dir (inner :: rest)).1
          = (paginationContainerLoop base dir rest).1)
    ∧ (findNext twoContainersHtml exBase { methods := some [.pagination] }).1
        = some "https://example.com/p/4".toList
    ∧ (findNext liThenFallbackHtml exBase { methods := some [.pagination] }).1
        = some "https://example.com/f/2".toList := by
  refine ⟨?_, ?_, ?_, ?_, ?_, ?_, by decide, by decide⟩
  · intro base dir attrs occs hE
    by_cases ha : attrs = []
    · simp [relLoop, ha]
    · rw [relLoop, if_neg ha]
      by_cases ht : relTest dir attrs = true
      · rw [if_pos ht]
        cases hEp : extractAbsoluteHref attrs base with
        | mk r l =>
          rw [hEp] at hE
          simp only at hE
          subst hE
          cases hrl : relLoop base dir occs with
          | mk r2 l2 => simp [hrl]
      · rw [if_neg ht]
  · intro base dir attrs inner occs hE
    simp only [textLoop]
    by_cases ha : attrs = [] ∨ inner = []
    · rw [if_pos ha]
    · rw [if_neg ha]
      by_cases hc : trimWs (stripEntities (stripHtmlTags inner)) = []
      · rw [if_pos hc]
      · rw [if_neg hc]
        by_cases ht : textTest dir (trimWs (stripEntities (stripHtmlTags inner))) = true
        · rw [if_pos ht]
          cases hEp : extractAbsoluteHref attrs base with
          | mk r l =>
            rw [hEp] at hE
            simp only at hE
            subst hE
            cases hrl : textLoop base dir occs with
            | mk r2 l2 => simp [hrl]
        · rw [if_neg ht]
  · intro base dir cnr attrs occs hE
    rw [classNameLoop]
    by_cases ha : attrs = []
    · rw [if_pos ha]
    · rw [if_neg ha]
      by_cases ht : classNameCond dir cnr attrs = true
      · rw [if_pos ht]
        cases hEp : extractAbsoluteHref attrs base with
        | mk r l =>
          rw [hEp] at hE
          simp only at hE
          subst hE
          cases hrl : classNameLoop base dir cnr occs with
          | mk r2 l2 => simp [hrl]
      · rw [if_neg ht]
  · intro base dir attrs occs hE
    rw [ariaLabelLoop]
    by_cases ha : attrs = []
    · rw [if_pos ha]
    · rw [if_neg ha]
      by_cases ht : ariaLabelCond dir attrs = true
      · rw [if_pos ht]
        cases hEp : extractAbsoluteHref attrs base with
        | mk r l =>
          rw [hEp] at hE
          simp only at hE
          subst hE
          cases hrl : ariaLabelLoop base dir occs with
          | mk r2 l2 => simp [hrl]
      · rw [if_neg ht]
  · intro base dir attrs inner occs hE
    rw [altLoop]
    by_cases ha : attrs = [] ∨ inner = []
    · rw [if_pos ha]
    · rw [if_neg ha]
      cases hI : altImgLoop attrs base dir (scanAll imgStep inner) with
      | mk r l =>
        have hn := altImgLoop_none attrs base dir hE (scanAll imgStep inner)
        rw [hI] at hn
        simp only at hn
        subst hn
        cases hrl : altLoop base dir occs with
        | mk r2 l2 => simp [hrl]
  · intro base dir inner rest hli hfb
    by_cases hi : inner = []
    · simp [paginationContainerLoop, hi]
    · rw [paginationContainerLoop, if_neg hi]
      cases h1 : firstMatchPos (liAt dir) inner with
      | none =>
        cases h2 : firstMatchPos (fbAt dir) inner with
        | none =>
          cases hrl : paginationContainerLoop base dir rest with
          | mk r l => simp [hrl]
        | some attrs2 =>
          have hE2 := hfb attrs2 h2
          cases hEp2 : extractAbsoluteHref attrs2 base with
          | mk r2 l2 =>
            rw [hEp2] at hE2
            simp only at hE2
            subst hE2
            cases hrl : paginationContainerLoop base dir rest with
            | mk r l => simp [hEp2, hrl]
      | some attrs1 =>
        have hE1 := hli attrs1 h1
        cases hEp1 : extractAbsoluteHref attrs1 base with
        | mk r1 l1 =>
          rw [hEp1] at hE1
          simp only at hE1
          subst hE1
          cases h2 : firstMatchPos (fbAt dir) inner with
          | none =>
            cases hrl : paginationContainerLoop base dir rest with
            | mk r l => simp [hEp1, hrl]
          | some attrs2 =>
            have hE2 := hfb attrs2 h2
            cases hEp2 : extractAbsoluteHref attrs2 base with
            | mk r2 l2 =>
              rw [hEp2] at hE2
              simp only at hE2
              subst hE2
              cases hrl : paginationContainerLoop base dir rest with
              | mk r l => simp [hEp1, hEp2, hrl]

/-- Witness for `c2_unresolvable_href_scan_continues` at concrete inputs. -/
theorem c2_unresolvable_href_scan_continues_witness :
    (relLoop exBase .next [badHrefAttrs]).1 = (relLoop exBase .next []).1
    ∧ (textLoop exBase .next [(badHrefAttrs, "Next".toList)]).1
        = (textLoop exBase .next []).1
    ∧ (classNameLoop exBase .next none [badHrefAttrs]).1
        = (classNameLoop exBase .next none []).1
    ∧ (ariaLabelLoop exBase .next [badHrefAttrs]).1 = (ariaLabelLoop exBase .next []).1
    ∧ (altLoop exBase .next [(badHrefAttrs, "<img alt=\"Next\">".toList)]).1
        = (altLoop exBase .next []).1
    ∧ (paginationContainerLoop exBase .next [badLiContainerInner]).1
        = (paginationContainerLoop exBase .next []).1 :=
  ⟨c2_unresolvable_href_scan_continues.1 exBase .next badHrefAttrs [] (by decide),
   c2_unresolvable_href_scan_continues.2.1 exBase .next badHrefAttrs "Next".toList []
     (by decide),
   c2_unresolvable_href_scan_continues.2.2.1 exBase .next none badHrefAttrs []
     (by decide),
   c2_unresolvable_href_scan_continues.2.2.2.1 exBase .next badHrefAttrs [] (by decide),
   c2_unresolvable_href_scan_continues.2.2.2.2.1 exBase .next badHrefAttrs
     "<img alt=\"Next\">".toList [] (by decide),
   c2_unresolvable_href_scan_continues.2.2.2.2.2.1 exBase .next badLiContainerInner []
     (by
       intro attrs h
       have hA : firstMatchPos (liAt .next) badLiContainerInner = some badHrefAttrs := by
         decide
       rw [hA] at h
       rw [← Option.some_inj.mp h]
       decide)
     (by
       intro attrs h
       have hA : firstMatchPos (fbAt .next) badLiContainerInner = none := by decide
       rw [hA] at h
       cases h)⟩

/-! ## C7: every returned URL is a resolved, well-formed absolute URL -/

theorem dropWhile_head_false (p : Char → Bool) :
    ∀ (l : Chars) c t, l.dropWhile p = c :: t → p c = false := by
  intro l
  induction l with
  | nil => intro c t h; simp at h
  | cons a r ih =>
    intro c t h
    rw [List.dropWhile_cons] at h
    by_cases hp : p a = true
    · rw [if_pos hp] at h
      exact ih c t h
    · rw [if_neg hp] at h
      injection h with h1 _
      subst h1
      simpa using hp

theorem dropWhile_to_slash (l : Chars) :
    ∃ w, (l ++ ['/']).dropWhile (fun c => c ≠ '/') = w ++ ['/'] := by
  induction l with
  | nil => exact ⟨[], by simp⟩
  | cons a r ih =>
    by_cases ha : a = '/'
    · refine ⟨a :: r, ?_⟩
      rw [List.cons_append, List.dropWhile_cons, if_neg (by simp [ha])]
    · obtain ⟨w, hw⟩ := ih
      refine ⟨w, ?_⟩
      rw [List.cons_append, List.dropWhile_cons, if_pos (by simp [ha]), hw]

/-- `dirOfPath` of a path starting with `/` starts with `/`. -/
theorem dirOfPath_slash (t : Chars) : ∃ w, dirOfPath ('/' :: t) = '/' :: w := by
  unfold dirOfPath
  rw [List.reverse_cons]
  obtain ⟨w, hw⟩ := dropWhile_to_slash t.reverse
  rw [hw, List.reverse_append]
  exact ⟨w.reverse, rfl⟩

theorem lcChar_not_ws (c : Char) (h : isWsChar c = false) : isWsChar (lcChar c) = false := by
  unfold lcChar
  split <;> first | decide | exact h

theorem lcChar_schemeChar (c : Char) (h : wfUrl.isSchemeChar c = true) :
    wfUrl.isSchemeChar (lcChar c) = true := by
  unfold lcChar
  split <;> first | decide | exact h

/-- The path component of `splitPQF`. -/
theorem splitPQF_path (s : Chars) :
    (splitPQF s).1 = s.takeWhile isPathChar := by
  unfold splitPQF
  repeat' split
  all_goals rfl


/-- A successful `parseUrlChars` yields a well-formed URL object. -/
theorem parseUrlChars_wf (s : Chars) (U : UrlObj) (h : parseUrlChars s = some U) : wfUrl U := by
  simp only [parseUrlChars] at h
  split at h
  · exact absurd h (by simp)
  case h_2 c0 sctl hsch =>
    split at h
    case isFalse => exact absurd h (by simp)
    case isTrue =>
      split at h
      case h_2 => exact absurd h (by simp)
      case h_1 r hdrop =>
        split at h
        case isTrue => exact absurd h (by simp)
        case isFalse =>
          rename_i hcond
          rw [Bool.or_eq_true] at hcond
          push_neg at hcond
          obtain ⟨hne, hws⟩ := hcond
          have hane : r.takeWhile isAuthChar ≠ [] := by
            simpa using hne
          have hschm : lcChars (s.takeWhile wfUrl.isSchemeChar) ≠ []
              ∧ ∀ c ∈ lcChars (s.takeWhile wfUrl.isSchemeChar), wfUrl.isSchemeChar c := by
            constructor
            · simp [lcChars, hsch]
            · intro c hc
              simp only [lcChars, List.mem_map] at hc
              obtain ⟨x, hx, rfl⟩ := hc
              exact lcChar_schemeChar x (List.mem_takeWhile_imp hx)
          have hhost : lcChars (r.takeWhile isAuthChar) ≠ []
              ∧ ∀ c ∈ lcChars (r.takeWhile isAuthChar),
                  ¬ isWsChar c := by
            constructor
            · simpa [lcChars] using hane
            · intro c hc
              simp only [lcChars, List.mem_map] at hc
              obtain ⟨x, hx, rfl⟩ := hc
              have hxw : isWsChar x = false := by
                have := List.any_eq_false.mp (by simpa using hws) x hx
                simpa using this
              simpa using lcChar_not_ws x hxw
          split at h
          case isTrue =>
            injection h with h
            subst h
            exact ⟨hschm.1, hschm.2, hhost.1, hhost.2, [], rfl⟩
          case isFalse =>
            rename_i hpne
            injection h with h
            subst h
            refine ⟨hschm.1, hschm.2, hhost.1, hhost.2, ?_⟩
            show ∃ p, (splitPQF (r.dropWhile isAuthChar)).1 = '/' :: p
            have hptw : (splitPQF (r.dropWhile isAuthChar)).1
                = (r.dropWhile isAuthChar).takeWhile isPathChar := splitPQF_path _
            cases hrest : r.dropWhile isAuthChar with
            | nil =>
              rw [hrest] at hptw hpne
              simp only [List.takeWhile_nil] at hptw
              exact absurd hptw hpne
            | cons c t =>
              have hcf := dropWhile_head_false _ r c t hrest
              have hc3 : c = '/' ∨ c = '?' ∨ c = '#' := by
                by_contra hcon
                push_neg at hcon
                obtain ⟨h1, h2, h3⟩ := hcon
                rw [show isAuthChar c = true from by simp [isAuthChar, h1, h2, h3]] at hcf
                exact Bool.noConfusion hcf
              rw [hrest] at hptw hpne
              rw [hptw]
              rw [hptw] at hpne
              rcases hc3 with rfl | rfl | rfl
              · rw [List.takeWhile_cons, if_pos (by decide)]
                exact ⟨_, rfl⟩
              · rw [List.takeWhile_cons, if_neg (by decide)] at hpne
                exact absurd rfl hpne
              · rw [List.takeWhile_cons, if_neg (by decide)] at hpne
                exact absurd rfl hpne

theorem jsResolve_abs (href base u : Chars) (h : jsResolve href base = some u) :
    ∃ U, wfUrl U ∧ u = U.href := by
  unfold jsResolve at h
  by_cases hs : hasUrlScheme href = true
  · rw [if_pos hs] at h
    cases hp : parseUrlChars href with
    | none => rw [hp] at h; simp at h
    | some V =>
      rw [hp] at h
      simp only [Option.map] at h
      exact ⟨V, parseUrlChars_wf href V hp, (Option.some_inj.mp h).symm⟩
  · rw [if_neg hs] at h
    split at h
    · exact absurd h (by simp)
    · -- some B, []
      rename_i B hb
      injection h with h
      exact ⟨B, parseUrlChars_wf base B hb, h.symm⟩
    · rename_i B x hb
      cases hp : parseUrlChars (B.scheme ++ ':' :: '/' :: '/' :: x) with
      | none => rw [hp] at h; simp at h
      | some V =>
        rw [hp] at h
        simp only [Option.map] at h
        exact ⟨V, parseUrlChars_wf _ V hp, (Option.some_inj.mp h).symm⟩
    · rename_i B t hdis hb
      split at h
      rename_i p q f hpqf
      injection h with h
      have hwfB := parseUrlChars_wf base B hb
      obtain ⟨h1, h2, h3, h4, _⟩ := hwfB
      refine ⟨⟨B.scheme, B.host, p, q, f⟩, ⟨h1, h2, h3, h4, ?_⟩, h.symm⟩
      have hpp : p = (splitPQF ('/' :: t)).1 := by rw [hpqf]
      rw [splitPQF_path, List.takeWhile_cons, if_pos (by decide)] at hpp
      exact ⟨_, hpp⟩
    · rename_i B r hb
      injection h with h
      have hwfB := parseUrlChars_wf base B hb
      obtain ⟨h1, h2, h3, h4, h5⟩ := hwfB
      refine ⟨_, ⟨?_, ?_, ?_, ?_, ?_⟩, h.symm⟩
      · exact h1
      · exact h2
      · exact h3
      · exact h4
      · exact h5
    · rename_i B f hb
      injection h with h
      have hwfB := parseUrlChars_wf base B hb
      obtain ⟨h1, h2, h3, h4, h5⟩ := hwfB
      refine ⟨_, ⟨?_, ?_, ?_, ?_, ?_⟩, h.symm⟩
      · exact h1
      · exact h2
      · exact h3
      · exact h4
      · exact h5
    · rename_i B hb d1 d2 d3 d4 d5
      split at h
      rename_i p q f hpqf
      injection h with h
      have hwfB := parseUrlChars_wf base B hb
      obtain ⟨h1, h2, h3, h4, t, h5⟩ := hwfB
      refine ⟨⟨B.scheme, B.host, dirOfPath B.pathname ++ p, q, f⟩, ⟨h1, h2, h3, h4, ?_⟩,
        h.symm⟩
      rw [h5]
      obtain ⟨w, hw⟩ := dirOfPath_slash t
      rw [hw]
      exact ⟨w ++ p, rfl⟩

/-- A successful `extractAbsoluteHref` comes from a nonempty extracted href
that resolves. -/
theorem extractAbsoluteHref_some (attrs base u : Chars)
    (h : (extractAbsoluteHref attrs base).1 = some u) :
    ∃ href, extractAttribute attrs hrefName = some href ∧ href ≠ []
      ∧ jsResolve href base = some u := by
  unfold extractAbsoluteHref at h
  split at h
  case h_1 href hx =>
    split at h
    · simp at h
    case isFalse hne =>
      split at h
      case h_1 u2 hr =>
        simp only at h
        exact ⟨href, hx, hne, by rw [hr, h]⟩
      · simp at h
  · simp at h

/-- Every successful result of the rel-strategy scan loop is a successful
`extractAbsoluteHref`. -/
theorem relLoop_from_resolve (base : Chars) (dir : Direction) :
    ∀ occs u, (relLoop base dir occs).1 = some u →
      ∃ attrs, (extractAbsoluteHref attrs base).1 = some u := by
  intro occs
  induction occs with
  | nil => intro u h; exact absurd h (by simp [relLoop])
  | cons attrs rest ih =>
    intro u h
    rw [relLoop] at h
    by_cases ha : attrs = []
    · rw [if_pos ha] at h
      exact ih u h
    · rw [if_neg ha] at h
      by_cases ht : relTest dir attrs = true
      · rw [if_pos ht] at h
        cases hE : extractAbsoluteHref attrs base with
        | mk r l =>
          rw [hE] at h
          cases r with
          | some u2 =>
            simp only at h
            exact ⟨attrs, by rw [hE]; simpa using h⟩
          | none =>
            cases hrl : relLoop base dir rest with
            | mk r2 l2 =>
              rw [hrl] at h
              simp only at h
              exact ih u (by rw [hrl]; simpa using h)
      · rw [if_neg ht] at h
        exact ih u h

/-- Same property for the text-strategy scan loop. -/
theorem textLoop_from_resolve (base : Chars) (dir : Direction) :
    ∀ occs u, (textLoop base dir occs).1 = some u →
      ∃ attrs, (extractAbsoluteHref attrs base).1 = some u := by
  intro occs
  induction occs with
  | nil => intro u h; exact absurd h (by simp [textLoop])
  | cons p rest ih =>
    obtain ⟨attrs, inner⟩ := p
    intro u h
    rw [textLoop] at h
    by_cases ha : attrs = [] ∨ inner = []
    · rw [if_pos ha] at h
      exact ih u h
    · rw [if_neg ha] at h
      by_cases hc : trimWs (stripEntities (stripHtmlTags inner)) = []
      · rw [if_pos hc] at h
        exact ih u h
      · rw [if_neg hc] at h
        by_cases ht : textTest dir (trimWs (stripEntities (stripHtmlTags inner))) = true
        · rw [if_pos ht] at h
          cases hE : extractAbsoluteHref attrs base with
          | mk r l =>
            rw [hE] at h
            cases r with
            | some u2 =>
              simp only at h
              exact ⟨attrs, by rw [hE]; simpa using h⟩
            | none =>
              cases hrl : textLoop base dir rest with
              | mk r2 l2 =>
                rw [hrl] at h
                simp only at h
                exact ih u (by rw [hrl]; simpa using h)
        · rw [if_neg ht] at h
          exact ih u h

/-- Same property for the className-strategy scan loop. -/
theorem classNameLoop_from_resolve (base : Chars) (dir : Direction)
    (cnr : Option (Chars → Bool)) :
    ∀ occs u, (classNameLoop base dir cnr occs).1 = some u →
      ∃ attrs, (extractAbsoluteHref attrs base).1 = some u := by
  intro occs
  induction occs with
  | nil => intro u h; exact absurd h (by simp [classNameLoop])
  | cons attrs rest ih =>
    intro u h
    rw [classNameLoop] at h
    by_cases ha : attrs = []
    · rw [if_pos ha] at h
      exact ih u h
    · rw [if_neg ha] at h
      by_cases ht : classNameCond dir cnr attrs = true
      · rw [if_pos ht] at h
        cases hE : extractAbsoluteHref attrs base with
        | mk r l =>
          rw [hE] at h
          cases r with
          | some u2 =>
            simp only at h
            exact ⟨attrs, by rw [hE]; simpa using h⟩
          | none =>
            cases hrl : classNameLoop base dir cnr rest with
            | mk r2 l2 =>
              rw [hrl] at h
              simp only at h
              exact ih u (by rw [hrl]; simpa using h)
      · rw [if_neg ht] at h
        exact ih u h

/-- Same property for the aria-label-strategy scan loop. -/
theorem ariaLabelLoop_from_resolve (base : Chars) (dir : Direction) :
    ∀ occs u, (ariaLabelLoop base dir occs).1 = some u →
      ∃ attrs, (extractAbsoluteHref attrs base).1 = some u := by
  intro occs
  induction occs with
  | nil => intro u h; exact absurd h (by simp [ariaLabelLoop])
  | cons attrs rest ih =>
    intro u h
    rw [ariaLabelLoop] at h
    by_cases ha : attrs = []
    · rw [if_pos ha] at h
      exact ih u h
    · rw [if_neg ha] at h
      by_cases ht : ariaLabelCond dir attrs = true
      · rw [if_pos ht] at h
        cases hE : extractAbsoluteHref attrs base with
        | mk r l =>
          rw [hE] at h
          cases r with
          | some u2 =>
            simp only at h
            exact ⟨attrs, by rw [hE]; simpa using h⟩
          | none =>
            cases hrl : ariaLabelLoop base dir rest with
            | mk r2 l2 =>
              rw [hrl] at h
              simp only at h
              exact ih u (by rw [hrl]; simpa using h)
      · rw [if_neg ht] at h
        exact ih u h

/-- Same property for the image-loop of the alt strategy: its result resolves
the enclosing anchor's attribute text. -/
theorem altImgLoop_from_resolve (attrs base : Chars) (dir : Direction) :
    ∀ imgs u, (altImgLoop attrs base dir imgs).1 = some u →
      (extractAbsoluteHref attrs base).1 = some u := by
  intro imgs
  induction imgs with
  | nil => intro u h; exact absurd h (by simp [altImgLoop])
  | cons img rest ih =>
    intro u h
    rw [altImgLoop] at h
    by_cases ht : altCond dir img = true
    · rw [if_pos ht] at h
      cases hE : extractAbsoluteHref attrs base with
      | mk r l =>
        rw [hE] at h
        cases r with
        | some u2 =>
          simp only at h
          simpa using h
        | none =>
          cases hrl : altImgLoop attrs base dir rest with
          | mk r2 l2 =>
            rw [hrl] at h
            simp only at h
            have hrec := ih u (by rw [hrl]; simpa using h)
            rw [hE] at hrec
            exact hrec
    · rw [if_neg ht] at h
      exact ih u h

/-- Same property for the alt-strategy scan loop. -/
theorem altLoop_from_resolve (base : Chars) (dir : Direction) :
    ∀ occs u, (altLoop base dir occs).1 = some u →
      ∃ attrs, (extractAbsoluteHref attrs base).1 = some u := by
  intro occs
  induction occs with
  | nil => intro u h; exact absurd h (by simp [altLoop])
  | cons p rest ih =>
    obtain ⟨attrs, inner⟩ := p
    intro u h
    rw [altLoop] at h
    by_cases ha : attrs = [] ∨ inner = []
    · rw [if_pos ha] at h
      exact ih u h
    · rw [if_neg ha] at h
      cases hI : altImgLoop attrs base dir (scanAll imgStep inner) with
      | mk r l =>
        rw [hI] at h
        cases r with
        | some u2 =>
          simp only at h
          refine ⟨attrs, altImgLoop_from_resolve attrs base dir (scanAll imgStep inner) u ?_⟩
          rw [hI]
          simpa using h
        | none =>
          cases hrl : altLoop base dir rest with
          | mk r2 l2 =>
            rw [hrl] at h
            simp only at h
            exact ih u (by rw [hrl]; simpa using h)

/-- Same property for the pagination-strategy container loop. -/
theorem paginationContainerLoop_from_resolve (base : Chars) (dir : Direction) :
    ∀ containers u, (paginationContainerLoop base dir containers).1 = some u →
      ∃ attrs, (extractAbsoluteHref attrs base).1 = some u := by
  intro containers
  induction containers with
  | nil => intro u h; exact absurd h (by simp [paginationContainerLoop])
  | cons inner rest ih =>
    intro u h
    rw [paginationContainerLoop] at h
    by_cases hi : inner = []
    · rw [if_pos hi] at h
      exact ih u h
    · rw [if_neg hi] at h
      cases h1 : firstMatchPos (liAt dir) inner with
      | some attrs1 =>
        rw [h1] at h
        simp only at h
        cases hE1 : extractAbsoluteHref attrs1 base with
        | mk r1 l1 =>
          rw [hE1] at h
          cases r1 with
          | some u2 =>
            simp only at h
            exact ⟨attrs1, by rw [hE1]; simpa using h⟩
          | none =>
            cases h2 : firstMatchPos (fbAt dir) inner with
            | some attrs2 =>
              rw [h2] at h
              simp only at h
              cases hE2 : extractAbsoluteHref attrs2 base with
              | mk r2 l2 =>
                rw [hE2] at h
                cases r2 with
                | some u3 =>
                  simp only at h
                  exact ⟨attrs2, by rw [hE2]; simpa using h⟩
                | none =>
                  cases hrl : paginationContainerLoop base dir rest with
                  | mk r3 l3 =>
                    rw [hrl] at h
                    simp only at h
                    exact ih u (by rw [hrl]; simpa using h)
            | none =>
              rw [h2] at h
              cases hrl : paginationContainerLoop base dir rest with
              | mk r3 l3 =>
                rw [hrl] at h
                simp only at h
                exact ih u (by rw [hrl]; simpa using h)
      | none =>
        rw [h1] at h
        simp only at h
        cases h2 : firstMatchPos (fbAt dir) inner with
        | some attrs2 =>
          rw [h2] at h
          simp only at h
          cases hE2 : extractAbsoluteHref attrs2 base with
          | mk r2 l2 =>
            rw [hE2] at h
            cases r2 with
            | some u3 =>
              simp only at h
              exact ⟨attrs2, by rw [hE2]; simpa using h⟩
            | none =>
              cases hrl : paginationContainerLoop base dir rest with
              | mk r3 l3 =>
                rw [hrl] at h
                simp only at h
                exact ih u (by rw [hrl]; simpa using h)
        | none =>
          rw [h2] at h
          cases hrl : paginationContainerLoop base dir rest with
          | mk r3 l3 =>
            rw [hrl] at h
            simp only at h
            exact ih u (by rw [hrl]; simpa using h)

/-- A successful strategy result always comes from `extractAbsoluteHref`. -/
theorem runStrategy_from_resolve (m : Method) (html base : Chars) (dir : Direction)
    (opts : EngineOptions) (u : Chars) (h : (runStrategy m html base dir opts).1 = some u) :
    ∃ attrs, (extractAbsoluteHref attrs base).1 = some u := by
  cases m with
  | rel => exact relLoop_from_resolve base dir _ u h
  | pagination => exact paginationContainerLoop_from_resolve base dir _ u h
  | text => exact textLoop_from_resolve base dir _ u h
  | className => exact classNameLoop_from_resolve base dir opts.classNameRegex _ u h
  | ariaLabel => exact ariaLabelLoop_from_resolve base dir _ u h
  | alt => exact altLoop_from_resolve base dir _ u h

/-- A successful dispatch result comes from one of the listed strategies. -/
theorem findLinkGo_from_strategy (html base : Chars) (dir : Direction) (opts : EngineOptions) :
    ∀ ms u, (findLinkGo html base dir opts ms).1 = some u →
      ∃ m ∈ ms, (runStrategy m html base dir opts).1 = some u := by
  intro ms
  induction ms with
  | nil => intro u h; exact absurd h (by simp [findLinkGo])
  | cons m ms ih =>
    intro u h
    rw [findLinkGo] at h
    cases hs : runStrategy m html base dir opts with
    | mk r l =>
      rw [hs] at h
      cases r with
      | some u2 =>
        simp only at h
        exact ⟨m, List.mem_cons_self m ms, by rw [hs]; simpa using h⟩
      | none =>
        cases hgo : findLinkGo html base dir opts ms with
        | mk r2 l2 =>
          rw [hgo] at h
          simp only at h
          obtain ⟨m2, hm2, hr2⟩ := ih u (by rw [hgo]; simpa using h)
          exact ⟨m2, List.mem_cons_of_mem m hm2, hr2⟩

/-- C7: whenever `findNext`/`findPrev` (through `findLink`) return a URL, it
is the resolution of an extracted href against the base URL and it is the
rendering of a well-formed absolute URL object — never a relative reference
or a malformed URL; concretely, `href="/page/2"` against
`https://example.com` yields `https://example.com/page/2`. -/
theorem c7_result_is_resolved_absolute_url :
    (∀ html base dir opts u, (findLink html base dir opts).1 = some u →
        (∃ attrs href, extractAttribute attrs hrefName = some href ∧ href ≠ []
            ∧ jsResolve href base = some u)
          ∧ ∃ U, wfUrl U ∧ u = U.href)
    ∧ (findNext "<a rel=\"next\" href=\"/page/2\">x</a>".toList exBase noOpts).1
        = some "https://example.com/page/2".toList := by
  refine ⟨?_, by decide⟩
  intro html base dir opts u h
  unfold findLink at h
  obtain ⟨m, _, hm⟩ := findLinkGo_from_strategy html base dir opts _ u h
  obtain ⟨attrs, hE⟩ := runStrategy_from_resolve m html base dir opts u hm
  obtain ⟨href, hx, hne, hres⟩ := extractAbsoluteHref_some attrs base u hE
  exact ⟨⟨attrs, href, hx, hne, hres⟩, jsResolve_abs href base u hres⟩

/-- Witness for `c7_result_is_resolved_absolute_url` at a concrete
document. -/
theorem c7_result_is_resolved_absolute_url_witness :
    (∃ attrs href, extractAttribute attrs hrefName = some href ∧ href ≠ []
        ∧ jsResolve href exBase = some "https://example.com/page/2".toList)
      ∧ ∃ U, wfUrl U ∧ "https://example.com/page/2".toList = U.href :=
  (c7_result_is_resolved_absolute_url.1 "<a rel=\"next\" href=\"/page/2\">x</a>".toList
    exBase .next noOpts "https://example.com/page/2".toList (by decide))

end Relnext
